import Mathlib

/-!
Shallow embedding of the `TokenStore` library (an index over a flat sorted
sequence of lexical elements, with position-based navigation queries).

Elements (`SyntaxElement` in the source) carry a half-open integer interval
`range = [start, end)`; a `kind` field stands for the remaining payload of the
JS object (token type, text, ...), which the store never inspects except
through the caller-supplied comment classifier.

Definitions are translated from `src/token-store/token-store.ts`:
  - `sortByStart` models `[...params.tokens].sort((a, b) => a.range[0] - b.range[0])`
    (a stable sort by start offset, as guaranteed by `Array.prototype.sort`);
  - `buildIdx` models the constructor loop filling `tokenStartToIndex`
    (`Map.set` overwrites, so a later index wins for a repeated start offset);
  - `searchGo`/`search`, `getFirstIndex`, `getLastIndex` model the module-level
    helpers (Lean's `Int` division is floor division, matching `Math.floor`);
  - `normalizeSkipOptions` / `normalizeCountOptions` model the two options
    normalizers; the `undef` constructor models passing `undefined`, whose
    optional-chaining reads make it behave as a record with all fields absent;
  - the `TokenStore.*` functions model the public query methods; the scan and
    collect helpers spell out their `for` loops (one helper per loop shape).
The memoized `cacheAllComments` field is observationally transparent (the store
never mutates) and is not represented.
-/

structure Elem where
  range : Int × Int
  kind : Nat
deriving DecidableEq, Repr

instance : Inhabited Elem := ⟨⟨(0, 0), 0⟩⟩

/-- Insert an element into a list, before the first element whose start offset
is not strictly smaller: folding this over the input yields the stable sort by
`range[0]` that `Array.prototype.sort((a, b) => a.range[0] - b.range[0])`
performs (sorted by start offset, ties kept in input order). -/
def insertElem (x : Elem) : List Elem → List Elem
  | [] => [x]
  | y :: ys => if y.range.1 < x.range.1 then y :: insertElem x ys else x :: y :: ys

/-- Stable sort of the token list by start offset. -/
def sortByStart : List Elem → List Elem
  | [] => []
  | x :: xs => insertElem x (sortByStart xs)

/-- Pointwise update of a finite map, modelling `Map.set`. -/
def mapSet (m : Int → Option Nat) (k : Int) (v : Nat) : Int → Option Nat :=
  fun x => if x = k then some v else m x

/-- Constructor loop: for each index `i` in order, record `range[0] ↦ i` when
the interval is non-empty (`range[0] < range[1]`); later writes overwrite. -/
def buildIdxGo (ts : List Elem) (i : Nat) (m : Int → Option Nat) : Int → Option Nat :=
  if i < ts.length then
    let token := ts.getD i default
    buildIdxGo ts (i + 1)
      (if token.range.1 < token.range.2 then mapSet m token.range.1 i else m)
  else m
termination_by ts.length - i

/-- The `tokenStartToIndex` map built by the constructor. -/
def buildIdx (ts : List Elem) : Int → Option Nat :=
  buildIdxGo ts 0 (fun _ => none)

/-- State of a constructed `TokenStore`. -/
structure TokenStore where
  allTokens : List Elem
  tokenStartToIndex : Int → Option Nat
  isComment : Elem → Bool

/-- The `TokenStore` constructor: sort the tokens by start offset and build the
start-offset index map. -/
def mkStore (tokens : List Elem) (isComment : Elem → Bool) : TokenStore :=
  let allTokens := sortByStart tokens
  { allTokens := allTokens
    tokenStartToIndex := buildIdx allTokens
    isComment := isComment }

/-- Loop body of the module-level `search` binary search.  Indices are `Int`
because `maxIndex` starts at `length - 1` and may reach `-1`; the division is
`Math.floor((minIndex + maxIndex) / 2)`, which Lean's `Int` division matches. -/
def searchGo (tokens : List Elem) (location : Int) (minIndex maxIndex : Int) : Int :=
  if h : minIndex ≤ maxIndex then
    let index := (minIndex + maxIndex) / 2
    let token := tokens.getD index.toNat default
    if token.range.1 < location then
      searchGo tokens location (index + 1) maxIndex
    else if location < token.range.1 then
      searchGo tokens location minIndex (index - 1)
    else index
  else minIndex
termination_by (maxIndex + 1 - minIndex).toNat
decreasing_by
  all_goals
    have h1 : minIndex ≤ (minIndex + maxIndex) / 2 := by
      rw [Int.le_ediv_iff_mul_le (by norm_num)]; omega
    have h2 : (minIndex + maxIndex) / 2 ≤ maxIndex := by
      have hb : (minIndex + maxIndex) / 2 ≤ (maxIndex + maxIndex) / 2 :=
        Int.ediv_le_ediv (by norm_num) (by omega)
      have hc : maxIndex + maxIndex = 2 * maxIndex := by ring
      have hd : 2 * maxIndex / 2 = maxIndex := Int.mul_ediv_cancel_left _ (by norm_num)
      rw [hc, hd] at hb
      exact hb
    omega

/-- Binary search for the index of the first token that is after the given
location (exact-hit index when a token starts there). -/
def search (tokens : List Elem) (location : Int) : Int :=
  searchGo tokens location 0 ((tokens.length : Int) - 1)

/-- While loop advancing forward past elements with `range[1] <= range[0]`. -/
def advanceZW (tokens : List Elem) (i : Nat) : Nat :=
  if h : i < tokens.length ∧
      (tokens.getD i default).range.2 ≤ (tokens.getD i default).range.1 then
    advanceZW tokens (i + 1)
  else i
termination_by tokens.length - i
decreasing_by omega

/-- While loop retreating backward past elements with `range[1] <= range[0]`. -/
def retreatZW (tokens : List Elem) (i : Int) : Int :=
  if h : 0 ≤ i ∧
      (tokens.getD i.toNat default).range.2 ≤ (tokens.getD i.toNat default).range.1 then
    retreatZW tokens (i - 1)
  else i
termination_by (i + 1).toNat
decreasing_by omega

/-- Get the index of the first token that is after the given location
(module-level `getFirstIndex`): consult the map, fall back to binary search,
then advance past zero-width elements. -/
def getFirstIndex (tokens : List Elem) (indexMap : Int → Option Nat) (startLoc : Int) : Nat :=
  let index : Nat :=
    match indexMap startLoc with
    | some i => i
    | none => (search tokens startLoc).toNat
  advanceZW tokens index

/-- Get the index of the last token that is before the given location
(module-level `getLastIndex`): map hit minus one, else binary search minus one,
then retreat past zero-width elements.  The result may be `-1`. -/
def getLastIndex (tokens : List Elem) (indexMap : Int → Option Nat) (endLoc : Int) : Int :=
  let index : Int :=
    match indexMap endLoc with
    | some i => (i : Int) - 1
    | none => search tokens endLoc - 1
  retreatZW tokens index

/-- Fields of a skip-style options record; an absent field is `none`
(`includeComments` is the truthiness of `options?.includeComments`). -/
structure SkipRec where
  includeComments : Bool
  filter : Option (Elem → Bool)
  skip : Option Int

/-- Call shapes accepted by the skip-style queries: `undefined`, a bare number,
a bare predicate, or an options record. -/
inductive SkipOptions where
  | undef
  | num (n : Int)
  | fn (f : Elem → Bool)
  | fields (r : SkipRec)

/-- Fields of a count-style options record. -/
structure CountRec where
  includeComments : Bool
  filter : Option (Elem → Bool)
  count : Option Int

/-- Call shapes accepted by the count-style queries. -/
inductive CountOptions where
  | undef
  | num (n : Int)
  | fn (f : Elem → Bool)
  | fields (r : CountRec)

/-- Normalizes the options for cursor methods (`normalizeSkipOptions`).  In the
source, `undefined` falls through both `typeof` checks into the record logic,
where every optional-chained read yields the absent default; the `undef` case
spells out that result. -/
def normalizeSkipOptions (options : SkipOptions) (isComment : Elem → Bool) :
    (Elem → Bool) × Int :=
  match options with
  | .num n => (fun token => !isComment token, n)
  | .fn f => (fun n => if isComment n then false else f n, 0)
  | .undef => (fun token => !isComment token, 0)
  | .fields r =>
    let filter :=
      if r.includeComments then r.filter.getD (fun _ => true)
      else
        match r.filter with
        | some baseFilter => fun token => if isComment token then false else baseFilter token
        | none => fun token => !isComment token
    (filter, r.skip.getD 0)

/-- Normalizes the options for cursor methods with count (`normalizeCountOptions`). -/
def normalizeCountOptions (options : CountOptions) (isComment : Elem → Bool) :
    (Elem → Bool) × Int :=
  match options with
  | .num n => (fun token => !isComment token, n)
  | .fn f => (fun n => if isComment n then false else f n, 0)
  | .undef => (fun token => !isComment token, 0)
  | .fields r =>
    let filter :=
      if r.includeComments then r.filter.getD (fun _ => true)
      else
        match r.filter with
        | some baseFilter => fun token => if isComment token then false else baseFilter token
        | none => fun token => !isComment token
    (filter, r.count.getD 0)

/-- Forward scan loop with an upper index bound, used by `getFirstToken`,
`getFirstTokenBetween`: `for (i = startIndex; i <= endIndex && i < length; i++)`
skipping filtered-out tokens and the first `skip` matches. -/
def scanFwdSkipTo (ts : List Elem) (filter : Elem → Bool) (skip : Int)
    (endIdx : Int) (i : Nat) (skipped : Int) : Option Elem :=
  if h : (i : Int) ≤ endIdx ∧ i < ts.length then
    let token := ts.getD i default
    if !filter token then scanFwdSkipTo ts filter skip endIdx (i + 1) skipped
    else if skipped < skip then scanFwdSkipTo ts filter skip endIdx (i + 1) (skipped + 1)
    else some token
  else none
termination_by ts.length - i
decreasing_by all_goals omega

/-- Forward scan loop without an upper bound, used by `getTokenAfter`:
`for (i = startIndex; i < length; i++)`. -/
def scanFwdSkip (ts : List Elem) (filter : Elem → Bool) (skip : Int)
    (i : Nat) (skipped : Int) : Option Elem :=
  if h : i < ts.length then
    let token := ts.getD i default
    if !filter token then scanFwdSkip ts filter skip (i + 1) skipped
    else if skipped < skip then scanFwdSkip ts filter skip (i + 1) (skipped + 1)
    else some token
  else none
termination_by ts.length - i
decreasing_by all_goals omega

/-- Backward scan loop with a lower index bound, used by `getLastTokenBetween`
(`for (i = endIndex; i >= startIndex; i--)`) and, with bound `0`, by
`getTokenBefore` (`for (i = endIndex; i >= 0; i--)`). -/
def scanBwdSkip (ts : List Elem) (filter : Elem → Bool) (skip : Int)
    (lo : Int) (i : Int) (skipped : Int) : Option Elem :=
  if h : lo ≤ i then
    let token := ts.getD i.toNat default
    if !filter token then scanBwdSkip ts filter skip lo (i - 1) skipped
    else if skipped < skip then scanBwdSkip ts filter skip lo (i - 1) (skipped + 1)
    else some token
  else none
termination_by (i + 1 - lo).toNat
decreasing_by all_goals omega

/-- Forward collect loop with an upper index bound, used by `getFirstTokens`,
`getFirstTokensBetween`, `getTokens`, `getTokensBetween`: push each match and
stop once `count > 0` matches were gathered. -/
def collectFwdTo (ts : List Elem) (filter : Elem → Bool) (count : Int)
    (endIdx : Int) (i : Nat) (acc : List Elem) : List Elem :=
  if h : (i : Int) ≤ endIdx ∧ i < ts.length then
    let token := ts.getD i default
    if !filter token then collectFwdTo ts filter count endIdx (i + 1) acc
    else
      let acc2 := acc ++ [token]
      if 0 < count ∧ count ≤ (acc2.length : Int) then acc2
      else collectFwdTo ts filter count endIdx (i + 1) acc2
  else acc
termination_by ts.length - i
decreasing_by all_goals omega

/-- Forward collect loop without an upper bound, used by `getTokensAfter`. -/
def collectFwd (ts : List Elem) (filter : Elem → Bool) (count : Int)
    (i : Nat) (acc : List Elem) : List Elem :=
  if h : i < ts.length then
    let token := ts.getD i default
    if !filter token then collectFwd ts filter count (i + 1) acc
    else
      let acc2 := acc ++ [token]
      if 0 < count ∧ count ≤ (acc2.length : Int) then acc2
      else collectFwd ts filter count (i + 1) acc2
  else acc
termination_by ts.length - i
decreasing_by all_goals omega

/-- Backward collect loop, used by `getTokensBefore` (lower bound `0`) and
`getLastTokensBetween` (lower bound `startIndex`): unshift each match and stop
once `count > 0` matches were gathered. -/
def collectBwd (ts : List Elem) (filter : Elem → Bool) (count : Int)
    (lo : Int) (i : Int) (acc : List Elem) : List Elem :=
  if h : lo ≤ i then
    let token := ts.getD i.toNat default
    if !filter token then collectBwd ts filter count lo (i - 1) acc
    else
      let acc2 := token :: acc
      if 0 < count ∧ count ≤ (acc2.length : Int) then acc2
      else collectBwd ts filter count lo (i - 1) acc2
  else acc
termination_by (i + 1 - lo).toNat
decreasing_by all_goals omega

/-- Backward contiguous-comment loop of `getCommentsBefore`: unshift while the
element is a comment, stop at the first non-comment. -/
def collectCommentsBwd (ts : List Elem) (isComment : Elem → Bool)
    (i : Int) (acc : List Elem) : List Elem :=
  if h : 0 ≤ i then
    let token := ts.getD i.toNat default
    if isComment token then collectCommentsBwd ts isComment (i - 1) (token :: acc)
    else acc
  else acc
termination_by (i + 1).toNat
decreasing_by all_goals omega

/-- Forward contiguous-comment loop of `getCommentsAfter`: push while the
element is a comment, stop at the first non-comment. -/
def collectCommentsFwd (ts : List Elem) (isComment : Elem → Bool)
    (i : Nat) (acc : List Elem) : List Elem :=
  if h : i < ts.length then
    let token := ts.getD i default
    if isComment token then collectCommentsFwd ts isComment (i + 1) (acc ++ [token])
    else acc
  else acc
termination_by ts.length - i
decreasing_by all_goals omega

/-- Existence loop of `commentsExistBetween`: return true at the first comment
in the window. -/
def anyCommentFwdTo (ts : List Elem) (isComment : Elem → Bool)
    (endIdx : Int) (i : Nat) : Bool :=
  if h : (i : Int) ≤ endIdx ∧ i < ts.length then
    if isComment (ts.getD i default) then true
    else anyCommentFwdTo ts isComment endIdx (i + 1)
  else false
termination_by ts.length - i
decreasing_by all_goals omega

/-- Walk loop of `isSpaceBetween`: return true at the first gap between the
running boundary `prev` and the next window element, else compare the final
boundary with `rightStart` after the loop. -/
def spaceWalkGo (ts : List Elem) (endIdx : Int) (rightStart : Int)
    (i : Nat) (prev : Elem) : Bool :=
  if h : (i : Int) ≤ endIdx ∧ i < ts.length then
    let token := ts.getD i default
    if prev.range.2 < token.range.1 then true
    else spaceWalkGo ts endIdx rightStart (i + 1) token
  else prev.range.2 < rightStart
termination_by ts.length - i
decreasing_by all_goals omega

/-- Declarative form of the `isSpaceBetween` walk, used to state its
specification: walk a list of elements keeping the previous boundary, stop with
true at the first gap, else compare the final boundary's end with
`rightStart`. -/
def spaceWalkList (rightStart : Int) (prev : Elem) : List Elem → Bool
  | [] => decide (prev.range.2 < rightStart)
  | t :: rest => if prev.range.2 < t.range.1 then true else spaceWalkList rightStart t rest

/-- Gets all tokens, including comments. -/
def TokenStore.getAllTokens (st : TokenStore) : List Elem :=
  st.allTokens

/-- Gets all comments (the memoized comment cache always holds this value). -/
def TokenStore.getAllComments (st : TokenStore) : List Elem :=
  st.allTokens.filter (fun token => st.isComment token)

/-- Gets all tokens that are related to the given node (`getTokens`). -/
def TokenStore.getTokens (st : TokenStore) (node : Elem) (options : CountOptions) : List Elem :=
  let nc := normalizeCountOptions options st.isComment
  let startIndex := getFirstIndex st.allTokens st.tokenStartToIndex node.range.1
  let endIndex := getLastIndex st.allTokens st.tokenStartToIndex node.range.2
  collectFwdTo st.allTokens nc.1 nc.2 endIndex startIndex []

/-- Gets all of the tokens between two non-overlapping nodes (`getTokensBetween`). -/
def TokenStore.getTokensBetween (st : TokenStore) (left right : Elem)
    (options : CountOptions) : List Elem :=
  let nc := normalizeCountOptions options st.isComment
  let startIndex := getFirstIndex st.allTokens st.tokenStartToIndex left.range.2
  let endIndex := getLastIndex st.allTokens st.tokenStartToIndex right.range.1
  collectFwdTo st.allTokens nc.1 nc.2 endIndex startIndex []

/-- Gets the token that follows a given node or token (`getTokenAfter`). -/
def TokenStore.getTokenAfter (st : TokenStore) (node : Elem)
    (options : SkipOptions) : Option Elem :=
  let ns := normalizeSkipOptions options st.isComment
  let startIndex := getFirstIndex st.allTokens st.tokenStartToIndex node.range.2
  scanFwdSkip st.allTokens ns.1 ns.2 startIndex 0

/-- Gets the `count` tokens that follow a given node or token (`getTokensAfter`). -/
def TokenStore.getTokensAfter (st : TokenStore) (node : Elem)
    (options : CountOptions) : List Elem :=
  let nc := normalizeCountOptions options st.isComment
  let startIndex := getFirstIndex st.allTokens st.tokenStartToIndex node.range.2
  collectFwd st.allTokens nc.1 nc.2 startIndex []

/-- Gets the token that precedes a given node or token (`getTokenBefore`). -/
def TokenStore.getTokenBefore (st : TokenStore) (node : Elem)
    (options : SkipOptions) : Option Elem :=
  let ns := normalizeSkipOptions options st.isComment
  let endIndex := getLastIndex st.allTokens st.tokenStartToIndex node.range.1
  scanBwdSkip st.allTokens ns.1 ns.2 0 endIndex 0

/-- Gets the `count` tokens that precede a given node or token (`getTokensBefore`). -/
def TokenStore.getTokensBefore (st : TokenStore) (node : Elem)
    (options : CountOptions) : List Elem :=
  let nc := normalizeCountOptions options st.isComment
  let endIndex := getLastIndex st.allTokens st.tokenStartToIndex node.range.1
  collectBwd st.allTokens nc.1 nc.2 0 endIndex []

/-- Gets the last token between two non-overlapping nodes (`getLastTokenBetween`). -/
def TokenStore.getLastTokenBetween (st : TokenStore) (left right : Elem)
    (options : SkipOptions) : Option Elem :=
  let ns := normalizeSkipOptions options st.isComment
  let startIndex := getFirstIndex st.allTokens st.tokenStartToIndex left.range.2
  let endIndex := getLastIndex st.allTokens st.tokenStartToIndex right.range.1
  scanBwdSkip st.allTokens ns.1 ns.2 (startIndex : Int) endIndex 0

/-- Gets all comment tokens directly before the given node or token
(`getCommentsBefore`). -/
def TokenStore.getCommentsBefore (st : TokenStore) (nodeOrToken : Elem) : List Elem :=
  let endIndex := getLastIndex st.allTokens st.tokenStartToIndex nodeOrToken.range.1
  collectCommentsBwd st.allTokens st.isComment endIndex []

/-- Gets all comment tokens directly after the given node or token
(`getCommentsAfter`). -/
def TokenStore.getCommentsAfter (st : TokenStore) (nodeOrToken : Elem) : List Elem :=
  let startIndex := getFirstIndex st.allTokens st.tokenStartToIndex nodeOrToken.range.2
  collectCommentsFwd st.allTokens st.isComment startIndex []

/-- Checks if there are any comment tokens between two non-overlapping nodes
(`commentsExistBetween`). -/
def TokenStore.commentsExistBetween (st : TokenStore) (left right : Elem) : Bool :=
  let startIndex := getFirstIndex st.allTokens st.tokenStartToIndex left.range.2
  let endIndex := getLastIndex st.allTokens st.tokenStartToIndex right.range.1
  anyCommentFwdTo st.allTokens st.isComment endIndex startIndex

/-- Checks if there is whitespace between two non-overlapping nodes
(`isSpaceBetween`). -/
def TokenStore.isSpaceBetween (st : TokenStore) (left right : Elem) : Bool :=
  if left.range.2 ≥ right.range.1 then false
  else
    let startIndex := getFirstIndex st.allTokens st.tokenStartToIndex left.range.2
    let endIndex := getLastIndex st.allTokens st.tokenStartToIndex right.range.1
    spaceWalkGo st.allTokens endIndex right.range.1 startIndex left

/-!
Specification-side predicates used to state the theorems.
-/

/-- Predicate for index `j` being a position recorded for key `L`: the element
there has a non-empty interval and starts at `L`. -/
def StartHit (ts : List Elem) (L : Int) (j : Nat) : Prop :=
  (ts.getD j default).range.1 < (ts.getD j default).range.2
  ∧ (ts.getD j default).range.1 = L

instance (ts : List Elem) (L : Int) (j : Nat) : Decidable (StartHit ts L j) :=
  inferInstanceAs (Decidable (_ ∧ _))

/-- Sortedness by start offset, stated over positions. -/
def SortedStarts (ts : List Elem) : Prop :=
  ∀ j, j < ts.length → ∀ i, i ≤ j →
    (ts.getD i default).range.1 ≤ (ts.getD j default).range.1

instance (ts : List Elem) : Decidable (SortedStarts ts) :=
  inferInstanceAs (Decidable (∀ j, j < ts.length → ∀ i, i ≤ j → _))

/-- Well-formedness of a sorted element sequence: every interval is proper
(`start ≤ end`) and earlier elements end before later elements start
(no overlap).  Token streams produced by a lexer satisfy this; the constructor
itself does not require it. -/
def ProperNonOverlapping (ts : List Elem) : Prop :=
  (∀ i, i < ts.length →
    (ts.getD i default).range.1 ≤ (ts.getD i default).range.2)
  ∧ ∀ j, j < ts.length → ∀ i, i < j →
      (ts.getD i default).range.2 ≤ (ts.getD j default).range.1

instance (ts : List Elem) : Decidable (ProperNonOverlapping ts) :=
  inferInstanceAs (Decidable (_ ∧ _))

/-- Offset `L` does not fall strictly inside any element of the sequence
(node boundaries taken from a well-formed AST satisfy this). -/
def NonInterior (ts : List Elem) (L : Int) : Prop :=
  ∀ i, i < ts.length →
    ¬((ts.getD i default).range.1 < L ∧ L < (ts.getD i default).range.2)

instance (ts : List Elem) (L : Int) : Decidable (NonInterior ts L) :=
  inferInstanceAs (Decidable (∀ i, i < ts.length → _))

/-- Element at position `k` has a non-empty interval contained in the node's
span `[lo, hi]`: this is the coordinate description of the non-zero-width
window members. -/
def InWindow (ts : List Elem) (lo hi : Int) (k : Nat) : Prop :=
  (ts.getD k default).range.1 < (ts.getD k default).range.2
  ∧ lo ≤ (ts.getD k default).range.1
  ∧ (ts.getD k default).range.2 ≤ hi

instance (ts : List Elem) (lo hi : Int) (k : Nat) : Decidable (InWindow ts lo hi k) :=
  inferInstanceAs (Decidable (_ ∧ _))

/-- Result specification for `getLastIndex` at offset `L`: `r` is the position
of the last non-zero-width element whose end offset is at most `L`, or `-1`
when no such element exists. -/
def LastEndLeSpec (ts : List Elem) (r : Int) (L : Int) : Prop :=
  -1 ≤ r ∧ r < (ts.length : Int)
  ∧ (0 ≤ r →
      (ts.getD r.toNat default).range.1 < (ts.getD r.toNat default).range.2
      ∧ (ts.getD r.toNat default).range.2 ≤ L)
  ∧ ∀ k, k < ts.length → r < (k : Int) →
      ¬((ts.getD k default).range.1 < (ts.getD k default).range.2
        ∧ (ts.getD k default).range.2 ≤ L)

instance (ts : List Elem) (r L : Int) : Decidable (LastEndLeSpec ts r L) :=
  inferInstanceAs (Decidable (_ ∧ _))

/-- Result specification for `getTokens` with default options: the output
equals the window slice of `allTokens` filtered to non-comments, and a position
lies in the resolved window iff it either holds a non-zero-width element whose
interval is contained in the node's span, or holds a zero-width element lying
between two such window elements.  `f` and `l` are the resolved boundary
positions. -/
def GetTokensWindowSpec (tokens : List Elem) (isC : Elem → Bool) (n : Elem) : Prop :=
  TokenStore.getTokens (mkStore tokens isC) n .undef
    = List.filter (fun x => !isC x)
        (List.drop
          (getFirstIndex (mkStore tokens isC).allTokens
            (mkStore tokens isC).tokenStartToIndex n.range.1)
          (List.take
            ((getLastIndex (mkStore tokens isC).allTokens
                (mkStore tokens isC).tokenStartToIndex n.range.2 + 1).toNat)
            (mkStore tokens isC).allTokens))
  ∧ ∀ k, k < (mkStore tokens isC).allTokens.length →
      ((getFirstIndex (mkStore tokens isC).allTokens
          (mkStore tokens isC).tokenStartToIndex n.range.1 ≤ k
        ∧ (k : Int) ≤ getLastIndex (mkStore tokens isC).allTokens
            (mkStore tokens isC).tokenStartToIndex n.range.2) ↔
        (InWindow (mkStore tokens isC).allTokens n.range.1 n.range.2 k
          ∨ (((mkStore tokens isC).allTokens.getD k default).range.2
                ≤ ((mkStore tokens isC).allTokens.getD k default).range.1
            ∧ (∃ j, j ≤ k ∧ InWindow (mkStore tokens isC).allTokens n.range.1 n.range.2 j)
            ∧ ∃ m, k ≤ m ∧ InWindow (mkStore tokens isC).allTokens n.range.1 n.range.2 m)))

/-!
General lemmas about the stable sort.
-/

theorem insertElem_perm (x : Elem) (l : List Elem) :
    List.Perm (insertElem x l) (x :: l) := by
  induction l with
  | nil => simp [insertElem]
  | cons y ys ih =>
    by_cases hy : y.range.1 < x.range.1
    · simp only [insertElem, if_pos hy]
      exact (List.Perm.cons y ih).trans (List.Perm.swap x y ys)
    · simp [insertElem, if_neg hy]

theorem sortByStart_perm (l : List Elem) : List.Perm (sortByStart l) l := by
  induction l with
  | nil => simp [sortByStart]
  | cons x xs ih =>
    exact (insertElem_perm x (sortByStart xs)).trans (List.Perm.cons x ih)

theorem insertElem_sorted (x : Elem) (l : List Elem)
    (hl : List.Pairwise (fun a b => a.range.1 ≤ b.range.1) l) :
    List.Pairwise (fun a b => a.range.1 ≤ b.range.1) (insertElem x l) := by
  induction l with
  | nil => simp [insertElem]
  | cons y ys ih =>
    rcases List.pairwise_cons.mp hl with ⟨hy, hys⟩
    by_cases hlt : y.range.1 < x.range.1
    · simp only [insertElem, if_pos hlt]
      refine List.pairwise_cons.mpr ⟨?_, ih hys⟩
      intro z hz
      have hz2 := (insertElem_perm x ys).mem_iff.mp hz
      rcases List.mem_cons.mp hz2 with h1 | h2
      · subst h1; exact le_of_lt hlt
      · exact hy z h2
    · simp only [insertElem, if_neg hlt]
      refine List.pairwise_cons.mpr ⟨?_, hl⟩
      intro z hz
      rcases List.mem_cons.mp hz with h1 | h2
      · subst h1; omega
      · exact le_trans (by omega) (hy z h2)

theorem sortByStart_sorted (l : List Elem) :
    List.Pairwise (fun a b => a.range.1 ≤ b.range.1) (sortByStart l) := by
  induction l with
  | nil => simp [sortByStart]
  | cons x xs ih => exact insertElem_sorted x (sortByStart xs) ih

theorem insertElem_filter_start (x : Elem) (l : List Elem) (v : Int) :
    (insertElem x l).filter (fun y => y.range.1 == v)
      = if x.range.1 == v then x :: l.filter (fun y => y.range.1 == v)
        else l.filter (fun y => y.range.1 == v) := by
  induction l with
  | nil => by_cases hx : x.range.1 == v <;> simp [insertElem, List.filter, hx]
  | cons y ys ih =>
    by_cases hlt : y.range.1 < x.range.1
    · have hstep : (insertElem x (y :: ys)) = y :: insertElem x ys := by
        simp [insertElem, if_pos hlt]
      rw [hstep]
      by_cases hx : x.range.1 = v
      · have hy : (y.range.1 == v) = false := by
          have hne : y.range.1 ≠ v := by omega
          simp [hne]
        simp only [List.filter, hy, ih]
      · have hx2 : (x.range.1 == v) = false := by simp [hx]
        simp only [List.filter, ih, hx2]
        simp
    · have hstep : (insertElem x (y :: ys)) = x :: y :: ys := by
        simp [insertElem, if_neg hlt]
      rw [hstep]
      by_cases hx : x.range.1 = v
      · simp [List.filter, hx]
      · have hx2 : (x.range.1 == v) = false := by simp [hx]
        simp [List.filter, hx2]

theorem sortByStart_filter_start (l : List Elem) (v : Int) :
    (sortByStart l).filter (fun y => y.range.1 == v)
      = l.filter (fun y => y.range.1 == v) := by
  induction l with
  | nil => rfl
  | cons x xs ih =>
    show (insertElem x (sortByStart xs)).filter _ = _
    rw [insertElem_filter_start]
    by_cases hx : x.range.1 = v
    · simp [List.filter, hx, ih]
    · have hx2 : (x.range.1 == v) = false := by simp [hx]
      simp [List.filter, hx2, ih]

theorem mkStore_allTokens (tokens : List Elem) (isC : Elem → Bool) :
    (mkStore tokens isC).allTokens = sortByStart tokens := rfl

/-- C4: for every constructed store, `getAllTokens()` returns the
construction-time token sequence sorted non-decreasingly by start offset
(pairwise `range[0] ≤ range[0]`), it is a permutation of the input (every input
element appears exactly once), and elements of equal start offset keep their
original input order (filtering both lists to any fixed start offset yields
identical lists, i.e. the sort is stable). -/
theorem C4_getAllTokens_sorted_stable (tokens : List Elem) (isC : Elem → Bool) :
    List.Pairwise (fun a b => a.range.1 ≤ b.range.1) ((mkStore tokens isC).getAllTokens)
    ∧ List.Perm ((mkStore tokens isC).getAllTokens) tokens
    ∧ ∀ v : Int,
        ((mkStore tokens isC).getAllTokens).filter (fun y => y.range.1 == v)
          = tokens.filter (fun y => y.range.1 == v) := by
  refine ⟨?_, ?_, ?_⟩
  · exact sortByStart_sorted tokens
  · exact sortByStart_perm tokens
  · intro v
    exact sortByStart_filter_start tokens v

/-- C5: options normalization.  A bare predicate is used as the filter but
comments are rejected regardless of what it returns; with
`includeComments: true` the effective filter is the user filter if given, else
accepts everything; with `includeComments` false/absent and a filter given, the
effective filter accepts `x` iff the user filter accepts `x` and `x` is not a
comment.  This holds for both the skip-style and the count-style normalizer
(through which every query runs its options). -/
theorem C5_normalize_options (isC f : Elem → Bool) (x : Elem) (sk ct : Option Int) :
    ((normalizeSkipOptions (.fn f) isC).1 x = (!isC x && f x))
    ∧ ((normalizeCountOptions (.fn f) isC).1 x = (!isC x && f x))
    ∧ ((normalizeSkipOptions (.fields ⟨true, some f, sk⟩) isC).1 x = f x)
    ∧ ((normalizeSkipOptions (.fields ⟨true, none, sk⟩) isC).1 x = true)
    ∧ ((normalizeSkipOptions (.fields ⟨false, some f, sk⟩) isC).1 x = (f x && !isC x))
    ∧ ((normalizeCountOptions (.fields ⟨true, some f, ct⟩) isC).1 x = f x)
    ∧ ((normalizeCountOptions (.fields ⟨true, none, ct⟩) isC).1 x = true)
    ∧ ((normalizeCountOptions (.fields ⟨false, some f, ct⟩) isC).1 x = (f x && !isC x)) := by
  refine ⟨?_, ?_, ?_, ?_, ?_, ?_, ?_, ?_⟩ <;>
    cases hc : isC x <;>
      simp [normalizeSkipOptions, normalizeCountOptions, hc]

theorem buildIdxGo_eq_some_iff (ts : List Elem) (L : Int) :
    ∀ (fuel i : Nat), ts.length ≤ i + fuel →
      ∀ (m : Int → Option Nat) (v : Nat),
      (buildIdxGo ts i m L = some v ↔
        (i ≤ v ∧ v < ts.length ∧ StartHit ts L v
          ∧ ∀ j, v < j → j < ts.length → ¬ StartHit ts L j)
        ∨ ((∀ j, i ≤ j → j < ts.length → ¬ StartHit ts L j) ∧ m L = some v)) := by
  intro fuel
  induction fuel with
  | zero =>
    intro i hfuel m v
    have hlen : ¬ i < ts.length := by omega
    have hstep : buildIdxGo ts i m L = m L := by
      rw [buildIdxGo]
      simp [hlen]
    rw [hstep]
    constructor
    · intro he
      exact Or.inr ⟨fun j hj hjl => by omega, he⟩
    · rintro (⟨h1, h2, _, _⟩ | ⟨_, he⟩)
      · omega
      · exact he
  | succ fuel ih =>
    intro i hfuel m v
    by_cases hlen : i < ts.length
    · have hstep : buildIdxGo ts i m L
          = buildIdxGo ts (i + 1)
              (if (ts.getD i default).range.1 < (ts.getD i default).range.2 then
                mapSet m (ts.getD i default).range.1 i else m) L := by
        rw [buildIdxGo]
        simp only [if_pos hlen]
      rw [hstep, ih (i + 1) (by omega)]
      by_cases hhit : StartHit ts L i
      · have hm : (if (ts.getD i default).range.1 < (ts.getD i default).range.2 then
            mapSet m (ts.getD i default).range.1 i else m) L = some i := by
          rcases hhit with ⟨hnz, hs⟩
          rw [if_pos hnz]
          show (if L = (ts.getD i default).range.1 then some i else m L) = some i
          rw [hs]
          simp
        rw [hm]
        constructor
        · rintro (⟨h1, h2, h3, h4⟩ | ⟨hb, he⟩)
          · exact Or.inl ⟨by omega, h2, h3, h4⟩
          · have hv : i = v := Option.some.inj he
            subst hv
            exact Or.inl ⟨le_refl _, hlen, hhit, fun j hj hjl => hb j (by omega) hjl⟩
        · rintro (⟨h1, h2, h3, h4⟩ | ⟨hb, _⟩)
          · by_cases hvi : v = i
            · subst hvi
              exact Or.inr ⟨fun j hj hjl => h4 j (by omega) hjl, rfl⟩
            · exact Or.inl ⟨by omega, h2, h3, h4⟩
          · exact absurd hhit (hb i (le_refl _) hlen)
      · have hm : (if (ts.getD i default).range.1 < (ts.getD i default).range.2 then
            mapSet m (ts.getD i default).range.1 i else m) L = m L := by
          by_cases hnz : (ts.getD i default).range.1 < (ts.getD i default).range.2
          · have hs : (ts.getD i default).range.1 ≠ L := fun hs => hhit ⟨hnz, hs⟩
            rw [if_pos hnz]
            show (if L = (ts.getD i default).range.1 then some i else m L) = m L
            rw [if_neg (fun h => hs h.symm)]
          · rw [if_neg hnz]
        rw [hm]
        constructor
        · rintro (⟨h1, h2, h3, h4⟩ | ⟨hb, he⟩)
          · have hvi : v ≠ i := fun hv => hhit (hv ▸ h3)
            exact Or.inl ⟨by omega, h2, h3, h4⟩
          · refine Or.inr ⟨fun j hj hjl => ?_, he⟩
            by_cases hji : j = i
            · exact hji ▸ hhit
            · exact hb j (by omega) hjl
        · rintro (⟨h1, h2, h3, h4⟩ | ⟨hb, he⟩)
          · have hvi : v ≠ i := fun hv => hhit (hv ▸ h3)
            exact Or.inl ⟨by omega, h2, h3, h4⟩
          · exact Or.inr ⟨fun j hj hjl => hb j (by omega) hjl, he⟩
    · have hstep : buildIdxGo ts i m L = m L := by
        rw [buildIdxGo]
        simp [hlen]
      rw [hstep]
      constructor
      · intro he
        exact Or.inr ⟨fun j hj hjl => by omega, he⟩
      · rintro (⟨h1, h2, _, _⟩ | ⟨_, he⟩)
        · omega
        · exact he

theorem buildIdx_eq_some_iff (ts : List Elem) (L : Int) (v : Nat) :
    buildIdx ts L = some v ↔
      (v < ts.length ∧ StartHit ts L v
        ∧ ∀ j, v < j → j < ts.length → ¬ StartHit ts L j) := by
  rw [buildIdx, buildIdxGo_eq_some_iff ts L ts.length 0 (by omega) (fun _ => none) v]
  constructor
  · rintro (⟨_, h2, h3, h4⟩ | ⟨_, he⟩)
    · exact ⟨h2, h3, h4⟩
    · exact absurd he (by simp)
  · rintro ⟨h2, h3, h4⟩
    exact Or.inl ⟨Nat.zero_le _, h2, h3, h4⟩

theorem buildIdxGo_eq_none_iff (ts : List Elem) (L : Int) :
    ∀ (fuel i : Nat), ts.length ≤ i + fuel →
      ∀ (m : Int → Option Nat),
      (buildIdxGo ts i m L = none ↔
        ((∀ j, i ≤ j → j < ts.length → ¬ StartHit ts L j) ∧ m L = none)) := by
  intro fuel
  induction fuel with
  | zero =>
    intro i hfuel m
    have hlen : ¬ i < ts.length := by omega
    have hstep : buildIdxGo ts i m L = m L := by
      rw [buildIdxGo]
      simp [hlen]
    rw [hstep]
    constructor
    · intro he
      exact ⟨fun j hj hjl => by omega, he⟩
    · rintro ⟨_, he⟩
      exact he
  | succ fuel ih =>
    intro i hfuel m
    by_cases hlen : i < ts.length
    · have hstep : buildIdxGo ts i m L
          = buildIdxGo ts (i + 1)
              (if (ts.getD i default).range.1 < (ts.getD i default).range.2 then
                mapSet m (ts.getD i default).range.1 i else m) L := by
        rw [buildIdxGo]
        simp only [if_pos hlen]
      rw [hstep, ih (i + 1) (by omega)]
      by_cases hhit : StartHit ts L i
      · have hm : (if (ts.getD i default).range.1 < (ts.getD i default).range.2 then
            mapSet m (ts.getD i default).range.1 i else m) L = some i := by
          rcases hhit with ⟨hnz, hs⟩
          rw [if_pos hnz]
          show (if L = (ts.getD i default).range.1 then some i else m L) = some i
          rw [hs]
          simp
        rw [hm]
        constructor
        · rintro ⟨_, he⟩
          exact absurd he (by simp)
        · rintro ⟨hb, _⟩
          exact absurd hhit (hb i (le_refl _) hlen)
      · have hm : (if (ts.getD i default).range.1 < (ts.getD i default).range.2 then
            mapSet m (ts.getD i default).range.1 i else m) L = m L := by
          by_cases hnz : (ts.getD i default).range.1 < (ts.getD i default).range.2
          · have hs : (ts.getD i default).range.1 ≠ L := fun hs => hhit ⟨hnz, hs⟩
            rw [if_pos hnz]
            show (if L = (ts.getD i default).range.1 then some i else m L) = m L
            rw [if_neg (fun h => hs h.symm)]
          · rw [if_neg hnz]
        rw [hm]
        constructor
        · rintro ⟨hb, he⟩
          refine ⟨fun j hj hjl => ?_, he⟩
          by_cases hji : j = i
          · exact hji ▸ hhit
          · exact hb j (by omega) hjl
        · rintro ⟨hb, he⟩
          exact ⟨fun j hj hjl => hb j (by omega) hjl, he⟩
    · have hstep : buildIdxGo ts i m L = m L := by
        rw [buildIdxGo]
        simp [hlen]
      rw [hstep]
      constructor
      · intro he
        exact ⟨fun j hj hjl => by omega, he⟩
      · rintro ⟨_, he⟩
        exact he

theorem buildIdx_eq_none_iff (ts : List Elem) (L : Int) :
    buildIdx ts L = none ↔ ∀ j, j < ts.length → ¬ StartHit ts L j := by
  rw [buildIdx, buildIdxGo_eq_none_iff ts L ts.length 0 (by omega) (fun _ => none)]
  constructor
  · rintro ⟨hb, _⟩
    exact fun j hj => hb j (Nat.zero_le _) hj
  · intro hb
    exact ⟨fun j _ hj => hb j hj, rfl⟩

/-!
Characterization of the binary search and the boundary resolvers.
-/

theorem int_avg_ge (a b : Int) (h : a ≤ b) : a ≤ (a + b) / 2 := by
  rw [Int.le_ediv_iff_mul_le (by norm_num : (0 : Int) < 2)]
  omega

theorem int_avg_le (a b : Int) (h : a ≤ b) : (a + b) / 2 ≤ b := by
  have hb : (a + b) / 2 ≤ (b + b) / 2 := Int.ediv_le_ediv (by norm_num) (by omega)
  have hc : b + b = 2 * b := by ring
  rw [hc, Int.mul_ediv_cancel_left b (by norm_num : (2 : Int) ≠ 0)] at hb
  exact hb

theorem searchGo_stop (ts : List Elem) (L lo hi : Int) (hgt : ¬ lo ≤ hi) :
    searchGo ts L lo hi = lo := by
  rw [searchGo]
  simp only [dif_neg hgt]

theorem searchGo_step (ts : List Elem) (L lo hi : Int) (hle : lo ≤ hi) :
    searchGo ts L lo hi =
      if (ts.getD ((lo + hi) / 2).toNat default).range.1 < L then
        searchGo ts L ((lo + hi) / 2 + 1) hi
      else if L < (ts.getD ((lo + hi) / 2).toNat default).range.1 then
        searchGo ts L lo ((lo + hi) / 2 - 1)
      else (lo + hi) / 2 := by
  rw [searchGo]
  simp only [dif_pos hle]

theorem searchGo_bounds (ts : List Elem) (L : Int) :
    ∀ (fuel : Nat) (lo hi : Int), (hi + 1 - lo).toNat ≤ fuel →
      lo ≤ searchGo ts L lo hi ∧ searchGo ts L lo hi ≤ max (hi + 1) lo := by
  intro fuel
  induction fuel with
  | zero =>
    intro lo hi hf
    rw [searchGo_stop ts L lo hi (by omega)]
    omega
  | succ fuel ih =>
    intro lo hi hf
    by_cases hle : lo ≤ hi
    · have h1 := int_avg_ge lo hi hle
      have h2 := int_avg_le lo hi hle
      rw [searchGo_step ts L lo hi hle]
      by_cases hlt : (ts.getD ((lo + hi) / 2).toNat default).range.1 < L
      · rw [if_pos hlt]
        have := ih ((lo + hi) / 2 + 1) hi (by omega)
        omega
      · rw [if_neg hlt]
        by_cases hgt : L < (ts.getD ((lo + hi) / 2).toNat default).range.1
        · rw [if_pos hgt]
          have := ih lo ((lo + hi) / 2 - 1) (by omega)
          omega
        · rw [if_neg hgt]
          omega
    · rw [searchGo_stop ts L lo hi hle]
      omega

theorem search_bounds (ts : List Elem) (L : Int) :
    0 ≤ search ts L ∧ search ts L ≤ (ts.length : Int) := by
  have := searchGo_bounds ts L (((ts.length : Int) - 1) + 1 - 0).toNat 0
    ((ts.length : Int) - 1) (le_refl _)
  unfold search
  omega

theorem searchGo_ord (ts : List Elem) (L : Int) (hs : SortedStarts ts) :
    ∀ (fuel : Nat) (lo hi : Int), (hi + 1 - lo).toNat ≤ fuel →
      0 ≤ lo → hi ≤ (ts.length : Int) - 1 →
      (∀ k : Nat, k < ts.length → (k : Int) < lo → (ts.getD k default).range.1 < L) →
      (∀ k : Nat, k < ts.length → hi < (k : Int) → L < (ts.getD k default).range.1) →
      (∀ k : Nat, k < ts.length → (k : Int) < searchGo ts L lo hi →
          (ts.getD k default).range.1 ≤ L)
      ∧ (∀ k : Nat, k < ts.length → searchGo ts L lo hi ≤ (k : Int) →
          L ≤ (ts.getD k default).range.1)
      ∧ ((∀ k : Nat, k < ts.length → (ts.getD k default).range.1 ≠ L) →
          ∀ k : Nat, k < ts.length → (k : Int) < searchGo ts L lo hi →
            (ts.getD k default).range.1 < L) := by
  intro fuel
  induction fuel with
  | zero =>
    intro lo hi hf h0 hh hL hR
    rw [searchGo_stop ts L lo hi (by omega)]
    refine ⟨?_, ?_, ?_⟩
    · intro k hk hklt
      exact le_of_lt (hL k hk hklt)
    · intro k hk hkge
      exact le_of_lt (hR k hk (by omega))
    · intro _ k hk hklt
      exact hL k hk hklt
  | succ fuel ih =>
    intro lo hi hf h0 hh hL hR
    by_cases hle : lo ≤ hi
    · have h1 := int_avg_ge lo hi hle
      have h2 := int_avg_le lo hi hle
      have hidxlen : ((lo + hi) / 2).toNat < ts.length := by omega
      have hidxcast : (((lo + hi) / 2).toNat : Int) = (lo + hi) / 2 := by omega
      rw [searchGo_step ts L lo hi hle]
      by_cases hlt : (ts.getD ((lo + hi) / 2).toNat default).range.1 < L
      · rw [if_pos hlt]
        refine ih ((lo + hi) / 2 + 1) hi (by omega) (by omega) hh ?_ hR
        intro k hk hklt
        have hsk : (ts.getD k default).range.1
            ≤ (ts.getD ((lo + hi) / 2).toNat default).range.1 :=
          hs ((lo + hi) / 2).toNat hidxlen k (by omega)
        exact lt_of_le_of_lt hsk hlt
      · rw [if_neg hlt]
        by_cases hgt : L < (ts.getD ((lo + hi) / 2).toNat default).range.1
        · rw [if_pos hgt]
          refine ih lo ((lo + hi) / 2 - 1) (by omega) h0 (by omega) hL ?_
          intro k hk hkgt
          have hsk : (ts.getD ((lo + hi) / 2).toNat default).range.1
              ≤ (ts.getD k default).range.1 :=
            hs k hk ((lo + hi) / 2).toNat (by omega)
          exact lt_of_lt_of_le hgt hsk
        · rw [if_neg hgt]
          have hseq : (ts.getD ((lo + hi) / 2).toNat default).range.1 = L := by omega
          refine ⟨?_, ?_, ?_⟩
          · intro k hk hklt
            have := hs ((lo + hi) / 2).toNat hidxlen k (by omega)
            omega
          · intro k hk hkge
            have := hs k hk ((lo + hi) / 2).toNat (by omega)
            omega
          · intro hne k hk hklt
            exact absurd hseq (hne ((lo + hi) / 2).toNat hidxlen)
    · rw [searchGo_stop ts L lo hi hle]
      refine ⟨?_, ?_, ?_⟩
      · intro k hk hklt
        exact le_of_lt (hL k hk hklt)
      · intro k hk hkge
        exact le_of_lt (hR k hk (by omega))
      · intro _ k hk hklt
        exact hL k hk hklt

theorem search_ord (ts : List Elem) (L : Int) (hs : SortedStarts ts) :
    (∀ k : Nat, k < ts.length → (k : Int) < search ts L →
        (ts.getD k default).range.1 ≤ L)
    ∧ (∀ k : Nat, k < ts.length → search ts L ≤ (k : Int) →
        L ≤ (ts.getD k default).range.1)
    ∧ ((∀ k : Nat, k < ts.length → (ts.getD k default).range.1 ≠ L) →
        ∀ k : Nat, k < ts.length → (k : Int) < search ts L →
          (ts.getD k default).range.1 < L) := by
  have h := searchGo_ord ts L hs (((ts.length : Int) - 1) + 1 - 0).toNat 0
    ((ts.length : Int) - 1) (le_refl _) (le_refl _) (by omega)
    (fun k hk hklt => by omega) (fun k hk hkgt => by omega)
  unfold search
  exact h

theorem advanceZW_spec (ts : List Elem) :
    ∀ (fuel i : Nat), ts.length ≤ i + fuel →
      i ≤ advanceZW ts i
      ∧ (i ≤ ts.length → advanceZW ts i ≤ ts.length)
      ∧ (∀ k, i ≤ k → k < advanceZW ts i →
          k < ts.length
          ∧ (ts.getD k default).range.2 ≤ (ts.getD k default).range.1)
      ∧ (advanceZW ts i < ts.length →
          ¬((ts.getD (advanceZW ts i) default).range.2
              ≤ (ts.getD (advanceZW ts i) default).range.1)) := by
  intro fuel
  induction fuel with
  | zero =>
    intro i hf
    have hc : ¬(i < ts.length
        ∧ (ts.getD i default).range.2 ≤ (ts.getD i default).range.1) :=
      fun h => absurd h.1 (by omega)
    rw [advanceZW, dif_neg hc]
    exact ⟨le_refl _, fun h => h, fun k hk1 hk2 => absurd hk2 (by omega),
      fun hlen hzw => hc ⟨hlen, hzw⟩⟩
  | succ fuel ih =>
    intro i hf
    by_cases hc : i < ts.length
        ∧ (ts.getD i default).range.2 ≤ (ts.getD i default).range.1
    · rw [advanceZW, dif_pos hc]
      obtain ⟨ih1, ih2, ih3, ih4⟩ := ih (i + 1) (by omega)
      refine ⟨by omega, fun _ => ih2 (by omega), ?_, ih4⟩
      intro k hk1 hk2
      by_cases hki : k = i
      · subst hki
        exact ⟨hc.1, hc.2⟩
      · exact ih3 k (by omega) hk2
    · rw [advanceZW, dif_neg hc]
      exact ⟨le_refl _, fun h => h, fun k hk1 hk2 => absurd hk2 (by omega),
        fun hlen hzw => hc ⟨hlen, hzw⟩⟩

theorem retreatZW_spec (ts : List Elem) :
    ∀ (fuel : Nat) (i : Int), (i + 1).toNat ≤ fuel →
      retreatZW ts i ≤ i
      ∧ (-1 ≤ i → -1 ≤ retreatZW ts i)
      ∧ (∀ k : Int, retreatZW ts i < k → k ≤ i →
          0 ≤ k
          ∧ (ts.getD k.toNat default).range.2 ≤ (ts.getD k.toNat default).range.1)
      ∧ (0 ≤ retreatZW ts i →
          ¬((ts.getD (retreatZW ts i).toNat default).range.2
              ≤ (ts.getD (retreatZW ts i).toNat default).range.1)) := by
  intro fuel
  induction fuel with
  | zero =>
    intro i hf
    have hc : ¬(0 ≤ i
        ∧ (ts.getD i.toNat default).range.2 ≤ (ts.getD i.toNat default).range.1) :=
      fun h => absurd h.1 (by omega)
    rw [retreatZW, dif_neg hc]
    exact ⟨le_refl _, fun h => h, fun k hk1 hk2 => absurd hk1 (by omega),
      fun h0 hzw => hc ⟨h0, hzw⟩⟩
  | succ fuel ih =>
    intro i hf
    by_cases hc : 0 ≤ i
        ∧ (ts.getD i.toNat default).range.2 ≤ (ts.getD i.toNat default).range.1
    · rw [retreatZW, dif_pos hc]
      obtain ⟨ih1, ih2, ih3, ih4⟩ := ih (i - 1) (by omega)
      refine ⟨by omega, fun _ => by have := ih2 (by omega); omega, ?_, ih4⟩
      intro k hk1 hk2
      by_cases hki : k = i
      · subst hki
        exact ⟨hc.1, hc.2⟩
      · exact ih3 k hk1 (by omega)
    · rw [retreatZW, dif_neg hc]
      exact ⟨le_refl _, fun h => h, fun k hk1 hk2 => absurd hk1 (by omega),
        fun h0 hzw => hc ⟨h0, hzw⟩⟩

theorem pno_sortedStarts (ts : List Elem) (hw : ProperNonOverlapping ts) :
    SortedStarts ts := by
  intro j hj i hij
  by_cases hlt : i < j
  · have h1 := hw.1 i (by omega)
    have h2 := hw.2 j hj i hlt
    omega
  · have heq : i = j := by omega
    subst heq
    exact le_refl _

theorem getFirstIndex_eq_of_some (ts : List Elem) (m : Int → Option Nat) (L : Int)
    (i : Nat) (h : m L = some i) : getFirstIndex ts m L = advanceZW ts i := by
  unfold getFirstIndex
  rw [h]

theorem getFirstIndex_eq_of_none (ts : List Elem) (m : Int → Option Nat) (L : Int)
    (h : m L = none) : getFirstIndex ts m L = advanceZW ts (search ts L).toNat := by
  unfold getFirstIndex
  rw [h]

theorem getLastIndex_eq_of_some (ts : List Elem) (m : Int → Option Nat) (L : Int)
    (i : Nat) (h : m L = some i) : getLastIndex ts m L = retreatZW ts ((i : Int) - 1) := by
  unfold getLastIndex
  rw [h]

theorem getLastIndex_eq_of_none (ts : List Elem) (m : Int → Option Nat) (L : Int)
    (h : m L = none) : getLastIndex ts m L = retreatZW ts (search ts L - 1) := by
  unfold getLastIndex
  rw [h]

/-- On a well-formed sequence, `getFirstIndex` resolves an offset `L` to the
first position holding a non-zero-width element whose start is at or after `L`
(or to a position at or beyond the end when there is none). -/
theorem getFirstIndex_wf_spec (ts : List Elem) (hw : ProperNonOverlapping ts) (L : Int) :
    getFirstIndex ts (buildIdx ts) L ≤ ts.length
    ∧ (getFirstIndex ts (buildIdx ts) L < ts.length →
        (ts.getD (getFirstIndex ts (buildIdx ts) L) default).range.1
            < (ts.getD (getFirstIndex ts (buildIdx ts) L) default).range.2
        ∧ L ≤ (ts.getD (getFirstIndex ts (buildIdx ts) L) default).range.1)
    ∧ (∀ k, k < getFirstIndex ts (buildIdx ts) L → k < ts.length →
        ¬((ts.getD k default).range.1 < (ts.getD k default).range.2
          ∧ L ≤ (ts.getD k default).range.1)) := by
  have hs := pno_sortedStarts ts hw
  cases hmap : buildIdx ts L with
  | some i =>
    obtain ⟨hilen, ⟨hinz, histart⟩, _⟩ := (buildIdx_eq_some_iff ts L i).mp hmap
    have hnadv : advanceZW ts i = i := by
      rw [advanceZW, dif_neg]
      intro h
      exact absurd h.2 (by omega)
    rw [getFirstIndex_eq_of_some ts _ L i hmap, hnadv]
    refine ⟨by omega, fun _ => ⟨hinz, by omega⟩, ?_⟩
    intro k hk hklen h
    obtain ⟨hknz, hkge⟩ := h
    have h2 := hw.2 i hilen k hk
    omega
  | none =>
    have hnone := (buildIdx_eq_none_iff ts L).mp hmap
    rw [getFirstIndex_eq_of_none ts _ L hmap]
    have hsb := search_bounds ts L
    obtain ⟨sord1, sord2, _⟩ := search_ord ts L hs
    obtain ⟨a1, a2, a3, a4⟩ := advanceZW_spec ts ts.length (search ts L).toNat (by omega)
    refine ⟨a2 (by omega), ?_, ?_⟩
    · intro hrlen
      have hnzw := a4 hrlen
      have hge := sord2 (advanceZW ts (search ts L).toNat) hrlen (by omega)
      exact ⟨by omega, hge⟩
    · intro k hk hklen h
      obtain ⟨hknz, hkge⟩ := h
      by_cases hks : k < (search ts L).toNat
      · have h1 := sord1 k hklen (by omega)
        have h2 : (ts.getD k default).range.1 ≠ L := fun he => hnone k hklen ⟨hknz, he⟩
        omega
      · have := a3 k (by omega) hk
        omega

/-- On a well-formed sequence, `getLastIndex` resolves an offset `L` to the
last position holding a non-zero-width element whose start is strictly before
`L`, or to `-1` when there is none. -/
theorem getLastIndex_wf_spec (ts : List Elem) (hw : ProperNonOverlapping ts) (L : Int) :
    -1 ≤ getLastIndex ts (buildIdx ts) L
    ∧ getLastIndex ts (buildIdx ts) L < (ts.length : Int)
    ∧ (0 ≤ getLastIndex ts (buildIdx ts) L →
        (ts.getD (getLastIndex ts (buildIdx ts) L).toNat default).range.1
            < (ts.getD (getLastIndex ts (buildIdx ts) L).toNat default).range.2
        ∧ (ts.getD (getLastIndex ts (buildIdx ts) L).toNat default).range.1 < L)
    ∧ (∀ k : Nat, k < ts.length → getLastIndex ts (buildIdx ts) L < (k : Int) →
        ¬((ts.getD k default).range.1 < (ts.getD k default).range.2
          ∧ (ts.getD k default).range.1 < L)) := by
  have hs := pno_sortedStarts ts hw
  cases hmap : buildIdx ts L with
  | some i =>
    obtain ⟨hilen, ⟨hinz, histart⟩, _⟩ := (buildIdx_eq_some_iff ts L i).mp hmap
    rw [getLastIndex_eq_of_some ts _ L i hmap]
    obtain ⟨r1, r2, r3, r4⟩ := retreatZW_spec ts i ((i : Int) - 1) (by omega)
    refine ⟨r2 (by omega), by omega, ?_, ?_⟩
    · intro h0
      have hnzw := r4 h0
      have hrlt : (retreatZW ts ((i : Int) - 1)).toNat < i := by omega
      have h2 := hw.2 i hilen (retreatZW ts ((i : Int) - 1)).toNat hrlt
      exact ⟨by omega, by omega⟩
    · intro k hklen hkgt h
      obtain ⟨hknz, hklt⟩ := h
      by_cases hki : (k : Int) ≤ (i : Int) - 1
      · have h3 := r3 (k : Int) hkgt hki
        have hcast : ((k : Int)).toNat = k := by omega
        rw [hcast] at h3
        omega
      · by_cases hkeq : k = i
        · subst hkeq
          omega
        · have h2 := hw.2 k hklen i (by omega)
          omega
  | none =>
    have hnone := (buildIdx_eq_none_iff ts L).mp hmap
    rw [getLastIndex_eq_of_none ts _ L hmap]
    have hsb := search_bounds ts L
    obtain ⟨sord1, sord2, _⟩ := search_ord ts L hs
    obtain ⟨r1, r2, r3, r4⟩ := retreatZW_spec ts ts.length (search ts L - 1) (by omega)
    refine ⟨r2 (by omega), by omega, ?_, ?_⟩
    · intro h0
      have hnzw := r4 h0
      have hrlen : (retreatZW ts (search ts L - 1)).toNat < ts.length := by omega
      have h1 := sord1 (retreatZW ts (search ts L - 1)).toNat hrlen (by omega)
      have h2 : (ts.getD (retreatZW ts (search ts L - 1)).toNat default).range.1 ≠ L :=
        fun he => hnone _ hrlen ⟨by omega, he⟩
      exact ⟨by omega, by omega⟩
    · intro k hklen hkgt h
      obtain ⟨hknz, hklt⟩ := h
      by_cases hks : (k : Int) ≤ search ts L - 1
      · have h3 := r3 (k : Int) hkgt hks
        have hcast : ((k : Int)).toNat = k := by omega
        rw [hcast] at h3
        omega
      · have := sord2 k hklen (by omega)
        omega

theorem slice_cons (ts : List Elem) (m i : Nat) (him : i < m) (hilen : i < ts.length) :
    (ts.take m).drop i = ts.getD i default :: (ts.take m).drop (i + 1) := by
  have hlt : i < (ts.take m).length := by
    rw [List.length_take]
    omega
  rw [List.drop_eq_getElem_cons hlt]
  congr 1
  rw [List.getElem_take, List.getD_eq_getElem ts default hilen]

theorem slice_nil (ts : List Elem) (m i : Nat) (h : m ≤ i ∨ ts.length ≤ i) :
    (ts.take m).drop i = [] := by
  apply List.drop_eq_nil_of_le
  rw [List.length_take]
  omega

theorem collectFwdTo_zero_eq (ts : List Elem) (fl : Elem → Bool) :
    ∀ (fuel i : Nat), ts.length ≤ i + fuel → ∀ (endIdx : Int) (acc : List Elem),
      collectFwdTo ts fl 0 endIdx i acc
        = acc ++ ((ts.take (endIdx + 1).toNat).drop i).filter fl := by
  intro fuel
  induction fuel with
  | zero =>
    intro i hf endIdx acc
    have hc : ¬((i : Int) ≤ endIdx ∧ i < ts.length) := fun h => absurd h.2 (by omega)
    rw [collectFwdTo, dif_neg hc, slice_nil ts _ i (by omega)]
    simp
  | succ fuel ih =>
    intro i hf endIdx acc
    by_cases hc : (i : Int) ≤ endIdx ∧ i < ts.length
    · rw [collectFwdTo, dif_pos hc]
      have hslice := slice_cons ts (endIdx + 1).toNat i (by omega) hc.2
      rw [hslice, List.filter_cons]
      by_cases hfl : fl (ts.getD i default) = true
      · rw [if_pos hfl]
        have hbreak : ¬((0 : Int) < 0 ∧ (0 : Int) ≤ ((acc ++ [ts.getD i default]).length : Int)) :=
          fun h => absurd h.1 (by omega)
        simp only [hfl, Bool.not_true, Bool.false_eq_true, if_false, if_neg hbreak]
        rw [ih (i + 1) (by omega) endIdx (acc ++ [ts.getD i default])]
        simp
      · rw [if_neg hfl]
        have hfl2 : fl (ts.getD i default) = false := by
          revert hfl
          cases fl (ts.getD i default) <;> simp
        simp only [hfl2, Bool.not_false, eq_self_iff_true, if_true]
        exact ih (i + 1) (by omega) endIdx acc
    · rw [collectFwdTo, dif_neg hc, slice_nil ts _ i (by omega)]
      simp

/-- C3 (amended): on a store whose sorted elements are proper and pairwise
non-overlapping, for an offset `L` that does not fall strictly inside any
element, `getLastIndex(allTokens, tokenStartToIndex, L)` returns the index of
the last NON-ZERO-WIDTH element whose end offset is at most `L`, or `-1` when
no such element exists.  The original claim (for arbitrary stores and offsets,
and counting zero-width elements) is refuted by `C3_counterexample`. -/
theorem C3_getLastIndex_spec (tokens : List Elem) (isC : Elem → Bool) (L : Int)
    (hw : ProperNonOverlapping (sortByStart tokens))
    (hni : NonInterior (sortByStart tokens) L) :
    LastEndLeSpec (mkStore tokens isC).allTokens
      (getLastIndex (mkStore tokens isC).allTokens
        (mkStore tokens isC).tokenStartToIndex L) L := by
  have hmap : (mkStore tokens isC).tokenStartToIndex = buildIdx (sortByStart tokens) := rfl
  have hts : (mkStore tokens isC).allTokens = sortByStart tokens := rfl
  rw [hmap, hts]
  obtain ⟨g1, g2, g3, g4⟩ := getLastIndex_wf_spec (sortByStart tokens) hw L
  refine ⟨g1, g2, ?_, ?_⟩
  · intro h0
    obtain ⟨hnz, hlt⟩ := g3 h0
    have hrlen : (getLastIndex (sortByStart tokens) (buildIdx (sortByStart tokens)) L).toNat
        < (sortByStart tokens).length := by omega
    have hne := hni _ hrlen
    exact ⟨hnz, by omega⟩
  · intro k hk hkgt h
    obtain ⟨hknz, hkend⟩ := h
    exact g4 k hk hkgt ⟨hknz, by omega⟩

/-- Witness for C3 at a concrete well-formed store and boundary offset. -/
theorem C3_getLastIndex_spec_witness :
    ProperNonOverlapping (sortByStart [⟨(0, 1), 0⟩, ⟨(2, 3), 1⟩])
    ∧ NonInterior (sortByStart [⟨(0, 1), 0⟩, ⟨(2, 3), 1⟩]) 2
    ∧ LastEndLeSpec (mkStore [⟨(0, 1), 0⟩, ⟨(2, 3), 1⟩] (fun e => e.kind == 1)).allTokens
        (getLastIndex (mkStore [⟨(0, 1), 0⟩, ⟨(2, 3), 1⟩] (fun e => e.kind == 1)).allTokens
          (mkStore [⟨(0, 1), 0⟩, ⟨(2, 3), 1⟩] (fun e => e.kind == 1)).tokenStartToIndex 2) 2 :=
  ⟨by decide, by decide,
    C3_getLastIndex_spec [⟨(0, 1), 0⟩, ⟨(2, 3), 1⟩] (fun e => e.kind == 1) 2
      (by decide) (by decide)⟩

/-- Counterexample to C3 as stated: in the store holding the single element
`[0,5)`, resolving the offset `3` (which falls inside that element) yields
index `0`, although no element of the store has end offset `≤ 3` — the claim
demands `-1` there. -/
theorem C3_counterexample :
    getLastIndex (mkStore [⟨(0, 5), 0⟩] (fun e => e.kind == 1)).allTokens
        (mkStore [⟨(0, 5), 0⟩] (fun e => e.kind == 1)).tokenStartToIndex 3 = 0
    ∧ ∀ x ∈ (mkStore [⟨(0, 5), 0⟩] (fun e => e.kind == 1)).allTokens, ¬(x.range.2 ≤ 3) := by
  constructor
  · simp [mkStore, sortByStart, insertElem, buildIdx, buildIdxGo, mapSet,
      getLastIndex, search, searchGo, retreatZW]
  · decide

theorem mkStore_tokenStartToIndex (tokens : List Elem) (isC : Elem → Bool) :
    (mkStore tokens isC).tokenStartToIndex = buildIdx (sortByStart tokens) := rfl

theorem InWindow_lt_length (ts : List Elem) (lo hi : Int) (j : Nat)
    (h : InWindow ts lo hi j) : j < ts.length := by
  by_contra hge
  have hd := List.getD_eq_default ts default (by omega : ts.length ≤ j)
  rw [InWindow, hd] at h
  obtain ⟨hnz, _⟩ := h
  have e1 : (default : Elem).range.1 = 0 := rfl
  have e2 : (default : Elem).range.2 = 0 := rfl
  omega

/-- C1 (amended): on a store whose sorted elements are proper and pairwise
non-overlapping, for a node whose boundary offsets do not fall strictly inside
any element, `getTokens(n)` with default options returns, in forward document
order, the non-comment elements of the resolved window slice; and a position
belongs to the resolved window exactly when it holds a non-zero-width element
whose interval lies within `[n.start, n.end]`, or a zero-width element lying
between two such window elements in the sorted sequence.  In particular a
zero-width element at a boundary offset never anchors the window, and — contra
the original claim — a zero-width element strictly inside the node's span is
NOT returned unless non-zero-width window elements surround it
(see `C1_counterexample`). -/
theorem C1_getTokens_window (tokens : List Elem) (isC : Elem → Bool) (n : Elem)
    (hw : ProperNonOverlapping (sortByStart tokens))
    (hn1 : NonInterior (sortByStart tokens) n.range.1)
    (hn2 : NonInterior (sortByStart tokens) n.range.2) :
    GetTokensWindowSpec tokens isC n := by
  have hsorted := pno_sortedStarts (sortByStart tokens) hw
  obtain ⟨f1, f2, f3⟩ := getFirstIndex_wf_spec (sortByStart tokens) hw n.range.1
  obtain ⟨g1, g2, g3, g4⟩ := getLastIndex_wf_spec (sortByStart tokens) hw n.range.2
  unfold GetTokensWindowSpec
  rw [mkStore_allTokens, mkStore_tokenStartToIndex]
  constructor
  · have hunfold : TokenStore.getTokens (mkStore tokens isC) n .undef
        = collectFwdTo (sortByStart tokens) (fun t => !isC t) 0
            (getLastIndex (sortByStart tokens) (buildIdx (sortByStart tokens)) n.range.2)
            (getFirstIndex (sortByStart tokens) (buildIdx (sortByStart tokens)) n.range.1)
            [] := rfl
    rw [hunfold,
      collectFwdTo_zero_eq (sortByStart tokens) (fun t => !isC t)
        (sortByStart tokens).length
        (getFirstIndex (sortByStart tokens) (buildIdx (sortByStart tokens)) n.range.1)
        (by omega)
        (getLastIndex (sortByStart tokens) (buildIdx (sortByStart tokens)) n.range.2) []]
    simp
  · intro k hk
    constructor
    · rintro ⟨hkf, hkl⟩
      have hl0 : (0 : Int)
          ≤ getLastIndex (sortByStart tokens) (buildIdx (sortByStart tokens)) n.range.2 := by
        omega
      obtain ⟨hlnz, hlstart⟩ := g3 hl0
      have hllen : (getLastIndex (sortByStart tokens)
          (buildIdx (sortByStart tokens)) n.range.2).toNat < (sortByStart tokens).length := by
        omega
      have hlend : ((sortByStart tokens).getD (getLastIndex (sortByStart tokens)
          (buildIdx (sortByStart tokens)) n.range.2).toNat default).range.2 ≤ n.range.2 := by
        have := hn2 _ hllen
        omega
      have hflen : getFirstIndex (sortByStart tokens)
          (buildIdx (sortByStart tokens)) n.range.1 < (sortByStart tokens).length := by
        omega
      obtain ⟨hfnz, hfstart⟩ := f2 hflen
      have hendle : ∀ j : Nat, (j : Int) ≤ getLastIndex (sortByStart tokens)
            (buildIdx (sortByStart tokens)) n.range.2 → j < (sortByStart tokens).length →
          ((sortByStart tokens).getD j default).range.2 ≤ n.range.2 := by
        intro j hj hjl
        by_cases hjeq : j = (getLastIndex (sortByStart tokens)
            (buildIdx (sortByStart tokens)) n.range.2).toNat
        · subst hjeq
          exact hlend
        · have := hw.2 _ hllen j (by omega)
          omega
      have hstartge : ∀ j, getFirstIndex (sortByStart tokens)
            (buildIdx (sortByStart tokens)) n.range.1 ≤ j → j < (sortByStart tokens).length →
          n.range.1 ≤ ((sortByStart tokens).getD j default).range.1 := by
        intro j hjf hjl
        have := hsorted j hjl _ hjf
        omega
      by_cases hknz : ((sortByStart tokens).getD k default).range.1
          < ((sortByStart tokens).getD k default).range.2
      · exact Or.inl ⟨hknz, hstartge k hkf hk, hendle k hkl hk⟩
      · refine Or.inr ⟨by omega, ⟨getFirstIndex (sortByStart tokens)
            (buildIdx (sortByStart tokens)) n.range.1, hkf,
            hfnz, hfstart, hendle _ (by omega) hflen⟩,
          ⟨(getLastIndex (sortByStart tokens)
              (buildIdx (sortByStart tokens)) n.range.2).toNat, by omega,
            hlnz, hstartge _ (by omega) hllen, hlend⟩⟩
    · rintro (⟨hknz, hks, hke⟩ | ⟨hkzw, ⟨j, hjk, hjw⟩, ⟨m, hkm, hmw⟩⟩)
      · constructor
        · by_contra hlt
          exact f3 k (by omega) hk ⟨hknz, hks⟩
        · by_contra hgt
          exact g4 k hk (by omega) ⟨hknz, by omega⟩
      · have hjlen := InWindow_lt_length _ _ _ _ hjw
        have hmlen := InWindow_lt_length _ _ _ _ hmw
        obtain ⟨hjnz, hjs, hje⟩ := hjw
        obtain ⟨hmnz, hms, hme⟩ := hmw
        have hfj : getFirstIndex (sortByStart tokens)
            (buildIdx (sortByStart tokens)) n.range.1 ≤ j := by
          by_contra hlt
          exact f3 j (by omega) hjlen ⟨hjnz, hjs⟩
        have hml : (m : Int) ≤ getLastIndex (sortByStart tokens)
            (buildIdx (sortByStart tokens)) n.range.2 := by
          by_contra hgt
          exact g4 m hmlen (by omega) ⟨hmnz, by omega⟩
        exact ⟨by omega, by omega⟩

/-- Witness for C1 at a concrete well-formed store (token, comment, token) and
the node spanning all three. -/
theorem C1_getTokens_window_witness :
    ProperNonOverlapping (sortByStart [⟨(0, 3), 0⟩, ⟨(3, 4), 1⟩, ⟨(4, 5), 0⟩])
    ∧ NonInterior (sortByStart [⟨(0, 3), 0⟩, ⟨(3, 4), 1⟩, ⟨(4, 5), 0⟩]) 0
    ∧ NonInterior (sortByStart [⟨(0, 3), 0⟩, ⟨(3, 4), 1⟩, ⟨(4, 5), 0⟩]) 5
    ∧ GetTokensWindowSpec [⟨(0, 3), 0⟩, ⟨(3, 4), 1⟩, ⟨(4, 5), 0⟩]
        (fun e => e.kind == 1) ⟨(0, 5), 9⟩ :=
  ⟨by decide, by decide, by decide,
    C1_getTokens_window [⟨(0, 3), 0⟩, ⟨(3, 4), 1⟩, ⟨(4, 5), 0⟩] (fun e => e.kind == 1)
      ⟨(0, 5), 9⟩ (by decide) (by decide) (by decide)⟩

/-- Counterexample to C1 as stated: the store holds a single non-comment
zero-width element `z = [5,5)`.  For the node `[0,10)`, `z`'s interval lies
within the node's span and `z` does not sit at either boundary offset, so the
claim requires `getTokens` (default options) to return `[z]`; the code returns
the empty list, because zero-width elements are skipped by both boundary
resolutions and here no non-zero-width window element covers them. -/
theorem C1_counterexample :
    TokenStore.getTokens (mkStore [⟨(5, 5), 0⟩] (fun e => e.kind == 1)) ⟨(0, 10), 0⟩ .undef = []
    ∧ (⟨(5, 5), 0⟩ : Elem) ∈ (mkStore [⟨(5, 5), 0⟩] (fun e => e.kind == 1)).allTokens
    ∧ (fun (e : Elem) => e.kind == 1) ⟨(5, 5), 0⟩ = false
    ∧ ((0 : Int) ≤ 5 ∧ (5 : Int) ≤ 10 ∧ (5 : Int) ≠ 0 ∧ (5 : Int) ≠ 10) := by
  refine ⟨?_, by decide, by decide, by decide⟩
  simp [mkStore, sortByStart, insertElem, buildIdx, buildIdxGo, mapSet, TokenStore.getTokens,
    normalizeCountOptions, getFirstIndex, getLastIndex, search, searchGo, advanceZW, retreatZW,
    collectFwdTo]

/-- C2 (amended): for every constructed store, `tokenStartToIndex` maps a key
`L` to position `v` iff the element at `v` has a non-empty interval and starts
at `L`, and `v` is the LAST such position (the constructor's `Map.set`
overwrites earlier writes).  In particular the map has an entry only for start
offsets of non-empty-interval elements and never maps to a zero-width
element's position.  The original claim's "first element having that start
offset" is refuted by `C2_counterexample`. -/
theorem C2_tokenStartToIndex_spec (tokens : List Elem) (isC : Elem → Bool)
    (L : Int) (v : Nat) :
    (mkStore tokens isC).tokenStartToIndex L = some v ↔
      (v < (mkStore tokens isC).allTokens.length
        ∧ StartHit (mkStore tokens isC).allTokens L v
        ∧ ∀ j, v < j → j < (mkStore tokens isC).allTokens.length
            → ¬ StartHit (mkStore tokens isC).allTokens L j) :=
  buildIdx_eq_some_iff (sortByStart tokens) L v

/-- Counterexample to C2 as stated: in the store built from two
non-empty-interval elements both starting at offset 0, the first element with
start offset 0 sits at position 0, yet `tokenStartToIndex` maps the key 0 to
position 1 (the last write wins). -/
theorem C2_counterexample :
    (mkStore [⟨(0, 2), 0⟩, ⟨(0, 1), 1⟩] (fun e => e.kind == 1)).tokenStartToIndex 0 = some 1
    ∧ (mkStore [⟨(0, 2), 0⟩, ⟨(0, 1), 1⟩] (fun e => e.kind == 1)).allTokens
        = [⟨(0, 2), 0⟩, ⟨(0, 1), 1⟩]
    ∧ ((mkStore [⟨(0, 2), 0⟩, ⟨(0, 1), 1⟩] (fun e => e.kind == 1)).allTokens.getD 0
        default).range.1 = 0 := by
  refine ⟨?_, ?_, ?_⟩ <;>
    simp [mkStore, sortByStart, insertElem, buildIdx, buildIdxGo, mapSet]

theorem anyCommentFwdTo_eq (ts : List Elem) (isC : Elem → Bool) :
    ∀ (fuel i : Nat), ts.length ≤ i + fuel → ∀ (endIdx : Int),
      anyCommentFwdTo ts isC endIdx i
        = ((ts.take (endIdx + 1).toNat).drop i).any isC := by
  intro fuel
  induction fuel with
  | zero =>
    intro i hf endIdx
    have hc : ¬((i : Int) ≤ endIdx ∧ i < ts.length) := fun h => absurd h.2 (by omega)
    rw [anyCommentFwdTo, dif_neg hc, slice_nil ts _ i (by omega)]
    rfl
  | succ fuel ih =>
    intro i hf endIdx
    by_cases hc : (i : Int) ≤ endIdx ∧ i < ts.length
    · rw [anyCommentFwdTo, dif_pos hc,
        slice_cons ts (endIdx + 1).toNat i (by omega) hc.2, List.any_cons]
      by_cases hisc : isC (ts.getD i default) = true
      · rw [if_pos hisc, hisc, Bool.true_or]
      · have hisc2 : isC (ts.getD i default) = false := by
          revert hisc
          cases isC (ts.getD i default) <;> simp
        rw [if_neg hisc, ih (i + 1) (by omega) endIdx, hisc2, Bool.false_or]
    · rw [anyCommentFwdTo, dif_neg hc, slice_nil ts _ i (by omega)]
      rfl

/-- C8: for every constructed store and every pair of elements,
`commentsExistBetween(left, right)` is true iff
`getTokensBetween(left, right, {includeComments: true})` contains an element
the classifier recognizes as a comment.  This holds for arbitrary stores and
arguments since both queries resolve the identical window. -/
theorem C8_commentsExistBetween_iff (tokens : List Elem) (isC : Elem → Bool)
    (left right : Elem) :
    TokenStore.commentsExistBetween (mkStore tokens isC) left right
      = (TokenStore.getTokensBetween (mkStore tokens isC) left right
          (.fields ⟨true, none, none⟩)).any isC := by
  have h1 : TokenStore.commentsExistBetween (mkStore tokens isC) left right
      = anyCommentFwdTo (sortByStart tokens) isC
          (getLastIndex (sortByStart tokens) (buildIdx (sortByStart tokens)) right.range.1)
          (getFirstIndex (sortByStart tokens) (buildIdx (sortByStart tokens)) left.range.2) :=
    rfl
  have h2 : TokenStore.getTokensBetween (mkStore tokens isC) left right
        (.fields ⟨true, none, none⟩)
      = collectFwdTo (sortByStart tokens) (fun _ => true) 0
          (getLastIndex (sortByStart tokens) (buildIdx (sortByStart tokens)) right.range.1)
          (getFirstIndex (sortByStart tokens) (buildIdx (sortByStart tokens)) left.range.2)
          [] := rfl
  rw [h1, h2,
    anyCommentFwdTo_eq (sortByStart tokens) isC (sortByStart tokens).length
      (getFirstIndex (sortByStart tokens) (buildIdx (sortByStart tokens)) left.range.2)
      (by omega)
      (getLastIndex (sortByStart tokens) (buildIdx (sortByStart tokens)) right.range.1),
    collectFwdTo_zero_eq (sortByStart tokens) (fun _ => true) (sortByStart tokens).length
      (getFirstIndex (sortByStart tokens) (buildIdx (sortByStart tokens)) left.range.2)
      (by omega)
      (getLastIndex (sortByStart tokens) (buildIdx (sortByStart tokens)) right.range.1) []]
  simp

theorem spaceWalkGo_eq_list (ts : List Elem) (rS : Int) :
    ∀ (fuel i : Nat), ts.length ≤ i + fuel → ∀ (endIdx : Int) (prev : Elem),
      spaceWalkGo ts endIdx rS i prev
        = spaceWalkList rS prev ((ts.take (endIdx + 1).toNat).drop i) := by
  intro fuel
  induction fuel with
  | zero =>
    intro i hf endIdx prev
    have hc : ¬((i : Int) ≤ endIdx ∧ i < ts.length) := fun h => absurd h.2 (by omega)
    rw [spaceWalkGo, dif_neg hc, slice_nil ts _ i (by omega)]
    rfl
  | succ fuel ih =>
    intro i hf endIdx prev
    by_cases hc : (i : Int) ≤ endIdx ∧ i < ts.length
    · rw [spaceWalkGo, dif_pos hc, slice_cons ts (endIdx + 1).toNat i (by omega) hc.2]
      rw [spaceWalkList]
      by_cases hgap : prev.range.2 < (ts.getD i default).range.1
      · rw [if_pos hgap, if_pos hgap]
      · rw [if_neg hgap, if_neg hgap, ih (i + 1) (by omega) endIdx]
    · rw [spaceWalkGo, dif_neg hc, slice_nil ts _ i (by omega)]
      rfl

theorem spaceWalkList_iff (rS : Int) :
    ∀ (w : List Elem) (prev : Elem),
      (spaceWalkList rS prev w = true ↔
        (¬ List.Chain' (fun a b => b.range.1 ≤ a.range.2) (prev :: w)
          ∨ (w.getLastD prev).range.2 < rS)) := by
  intro w
  induction w with
  | nil =>
    intro prev
    rw [spaceWalkList]
    rw [decide_eq_true_iff]
    simp [List.chain'_singleton]
  | cons t rest ih =>
    intro prev
    rw [spaceWalkList, List.getLastD_cons]
    by_cases hgap : prev.range.2 < t.range.1
    · rw [if_pos hgap]
      constructor
      · intro _
        refine Or.inl ?_
        rw [List.chain'_cons]
        rintro ⟨hok, _⟩
        omega
      · intro _
        rfl
    · rw [if_neg hgap, ih t]
      have hok : t.range.1 ≤ prev.range.2 := by omega
      rw [List.chain'_cons]
      constructor
      · rintro (hnc | hlast)
        · exact Or.inl (fun h => hnc h.2)
        · exact Or.inr hlast
      · rintro (hnc | hlast)
        · refine Or.inl (fun h => hnc ⟨hok, h⟩)
        · exact Or.inr hlast

/-- C9: `isSpaceBetween(left, right)` returns false whenever
`left.end >= right.start`; otherwise it returns true iff, walking the resolved
window's elements in forward order with `left` as the initial boundary, some
element's start offset strictly exceeds the previous boundary's end offset
(the chain of abutments is broken), or the final boundary's end offset is
still strictly less than `right.start`.  Holds for every constructed store and
arbitrary arguments. -/
theorem C9_isSpaceBetween_iff (tokens : List Elem) (isC : Elem → Bool)
    (left right : Elem) :
    (TokenStore.isSpaceBetween (mkStore tokens isC) left right = true) ↔
      (left.range.2 < right.range.1
        ∧ (¬ List.Chain' (fun a b => b.range.1 ≤ a.range.2)
              (left :: (((mkStore tokens isC).allTokens.take
                  ((getLastIndex (mkStore tokens isC).allTokens
                      (mkStore tokens isC).tokenStartToIndex right.range.1 + 1).toNat)).drop
                (getFirstIndex (mkStore tokens isC).allTokens
                  (mkStore tokens isC).tokenStartToIndex left.range.2)))
          ∨ ((((mkStore tokens isC).allTokens.take
                  ((getLastIndex (mkStore tokens isC).allTokens
                      (mkStore tokens isC).tokenStartToIndex right.range.1 + 1).toNat)).drop
                (getFirstIndex (mkStore tokens isC).allTokens
                  (mkStore tokens isC).tokenStartToIndex left.range.2)).getLastD
              left).range.2 < right.range.1)) := by
  rw [mkStore_allTokens, mkStore_tokenStartToIndex]
  by_cases hov : left.range.2 ≥ right.range.1
  · have hfalse : TokenStore.isSpaceBetween (mkStore tokens isC) left right = false := by
      rw [TokenStore.isSpaceBetween, if_pos hov]
    rw [hfalse]
    constructor
    · intro h
      exact absurd h (by simp)
    · rintro ⟨hlt, _⟩
      omega
  · have hstep : TokenStore.isSpaceBetween (mkStore tokens isC) left right
        = spaceWalkGo (sortByStart tokens)
            (getLastIndex (sortByStart tokens) (buildIdx (sortByStart tokens)) right.range.1)
            right.range.1
            (getFirstIndex (sortByStart tokens) (buildIdx (sortByStart tokens)) left.range.2)
            left := by
      rw [TokenStore.isSpaceBetween, if_neg hov]
      rfl
    rw [hstep,
      spaceWalkGo_eq_list (sortByStart tokens) right.range.1 (sortByStart tokens).length
        (getFirstIndex (sortByStart tokens) (buildIdx (sortByStart tokens)) left.range.2)
        (by omega)
        (getLastIndex (sortByStart tokens) (buildIdx (sortByStart tokens)) right.range.1) left,
      spaceWalkList_iff]
    constructor
    · intro h
      exact ⟨by omega, h⟩
    · rintro ⟨_, h⟩
      exact h

theorem getFirstIndex_le_length (ts : List Elem) (L : Int) :
    getFirstIndex ts (buildIdx ts) L ≤ ts.length := by
  cases hmap : buildIdx ts L with
  | some i =>
    obtain ⟨hilen, _, _⟩ := (buildIdx_eq_some_iff ts L i).mp hmap
    rw [getFirstIndex_eq_of_some ts _ L i hmap]
    obtain ⟨_, a2, _, _⟩ := advanceZW_spec ts ts.length i (by omega)
    exact a2 (by omega)
  | none =>
    rw [getFirstIndex_eq_of_none ts _ L hmap]
    have hsb := search_bounds ts L
    obtain ⟨_, a2, _, _⟩ := advanceZW_spec ts ts.length (search ts L).toNat (by omega)
    exact a2 (by omega)

theorem getLastIndex_bounds (ts : List Elem) (L : Int) :
    -1 ≤ getLastIndex ts (buildIdx ts) L
    ∧ getLastIndex ts (buildIdx ts) L < (ts.length : Int) := by
  cases hmap : buildIdx ts L with
  | some i =>
    obtain ⟨hilen, _, _⟩ := (buildIdx_eq_some_iff ts L i).mp hmap
    rw [getLastIndex_eq_of_some ts _ L i hmap]
    obtain ⟨r1, r2, _, _⟩ := retreatZW_spec ts i ((i : Int) - 1) (by omega)
    exact ⟨r2 (by omega), by omega⟩
  | none =>
    rw [getLastIndex_eq_of_none ts _ L hmap]
    have hsb := search_bounds ts L
    obtain ⟨r1, r2, _, _⟩ := retreatZW_spec ts ts.length (search ts L - 1) (by omega)
    exact ⟨r2 (by omega), by omega⟩

theorem scanBwdSkip_mem (ts : List Elem) (fl : Elem → Bool) (sk : Int) :
    ∀ (fuel : Nat) (lo i : Int), (i + 1 - lo).toNat ≤ fuel → 0 ≤ lo →
      i < (ts.length : Int) → ∀ (skipped : Int) (t : Elem),
      scanBwdSkip ts fl sk lo i skipped = some t → t ∈ ts := by
  intro fuel
  induction fuel with
  | zero =>
    intro lo i hf h0 hlen skipped t hsc
    have hc : ¬ lo ≤ i := by omega
    rw [scanBwdSkip, dif_neg hc] at hsc
    exact absurd hsc (by simp)
  | succ fuel ih =>
    intro lo i hf h0 hlen skipped t hsc
    by_cases hc : lo ≤ i
    · rw [scanBwdSkip, dif_pos hc] at hsc
      have hmem : ts.getD i.toNat default ∈ ts := by
        have hi : i.toNat < ts.length := by omega
        rw [List.getD_eq_getElem ts default hi]
        exact List.getElem_mem hi
      by_cases hfl : (!fl (ts.getD i.toNat default)) = true
      · rw [if_pos hfl] at hsc
        exact ih lo (i - 1) (by omega) h0 (by omega) skipped t hsc
      · rw [if_neg hfl] at hsc
        by_cases hsk : skipped < sk
        · rw [if_pos hsk] at hsc
          exact ih lo (i - 1) (by omega) h0 (by omega) (skipped + 1) t hsc
        · rw [if_neg hsk] at hsc
          have ht : ts.getD i.toNat default = t := Option.some.inj hsc
          exact ht ▸ hmem
    · rw [scanBwdSkip, dif_neg hc] at hsc
      exact absurd hsc (by simp)

theorem collectFwdTo_mem (ts : List Elem) (fl : Elem → Bool) :
    ∀ (fuel i : Nat), ts.length ≤ i + fuel → ∀ (count endIdx : Int) (acc : List Elem)
      (x : Elem), x ∈ collectFwdTo ts fl count endIdx i acc → x ∈ acc ∨ x ∈ ts := by
  intro fuel
  induction fuel with
  | zero =>
    intro i hf count endIdx acc x hx
    have hc : ¬((i : Int) ≤ endIdx ∧ i < ts.length) := fun h => absurd h.2 (by omega)
    rw [collectFwdTo, dif_neg hc] at hx
    exact Or.inl hx
  | succ fuel ih =>
    intro i hf count endIdx acc x hx
    by_cases hc : (i : Int) ≤ endIdx ∧ i < ts.length
    · rw [collectFwdTo, dif_pos hc] at hx
      have hmem : ts.getD i default ∈ ts := by
        rw [List.getD_eq_getElem ts default hc.2]
        exact List.getElem_mem hc.2
      by_cases hfl : (!fl (ts.getD i default)) = true
      · rw [if_pos hfl] at hx
        exact ih (i + 1) (by omega) count endIdx acc x hx
      · rw [if_neg hfl] at hx
        by_cases hbr : 0 < count ∧ count ≤ (((acc ++ [ts.getD i default]).length : Nat) : Int)
        · rw [if_pos hbr] at hx
          rcases List.mem_append.mp hx with h1 | h2
          · exact Or.inl h1
          · rw [List.mem_singleton.mp h2]
            exact Or.inr hmem
        · rw [if_neg hbr] at hx
          rcases ih (i + 1) (by omega) count endIdx (acc ++ [ts.getD i default]) x hx with
            h1 | h2
          · rcases List.mem_append.mp h1 with h3 | h4
            · exact Or.inl h3
            · rw [List.mem_singleton.mp h4]
              exact Or.inr hmem
          · exact Or.inr h2
    · rw [collectFwdTo, dif_neg hc] at hx
      exact Or.inl hx

/-- C7: for every constructed store (any token list, any classifier) and
arbitrary query arguments — including reversed or overlapping pairs and
offsets outside the construction coordinate space — the index computations
stay within bounds (`search` lands in `[0, length]`, `getFirstIndex` in
`[0, length]`, `getLastIndex` in `[-1, length)`), and the queries return
well-shaped results drawn from the store: a single-element query yields `none`
or an element of `allTokens`, and a multi-element query yields a list whose
members all belong to `allTokens`.  No out-of-bounds access occurs and nothing
is thrown; "no match" is the value `none` / the empty list. -/
theorem C7_total_queries (tokens : List Elem) (isC : Elem → Bool) (L : Int)
    (left right : Elem) (sopts : SkipOptions) (copts : CountOptions) :
    (0 ≤ search (mkStore tokens isC).allTokens L
      ∧ search (mkStore tokens isC).allTokens L
          ≤ ((mkStore tokens isC).allTokens.length : Int))
    ∧ getFirstIndex (mkStore tokens isC).allTokens
        (mkStore tokens isC).tokenStartToIndex L ≤ (mkStore tokens isC).allTokens.length
    ∧ (-1 ≤ getLastIndex (mkStore tokens isC).allTokens
          (mkStore tokens isC).tokenStartToIndex L
      ∧ getLastIndex (mkStore tokens isC).allTokens
          (mkStore tokens isC).tokenStartToIndex L
          < ((mkStore tokens isC).allTokens.length : Int))
    ∧ (∀ t, TokenStore.getLastTokenBetween (mkStore tokens isC) left right sopts = some t →
        t ∈ (mkStore tokens isC).allTokens)
    ∧ (∀ x, x ∈ TokenStore.getTokensBetween (mkStore tokens isC) left right copts →
        x ∈ (mkStore tokens isC).allTokens) := by
  rw [mkStore_allTokens, mkStore_tokenStartToIndex]
  refine ⟨search_bounds (sortByStart tokens) L,
    getFirstIndex_le_length (sortByStart tokens) L,
    getLastIndex_bounds (sortByStart tokens) L, ?_, ?_⟩
  · intro t ht
    have hunfold : TokenStore.getLastTokenBetween (mkStore tokens isC) left right sopts
        = scanBwdSkip (sortByStart tokens)
            (normalizeSkipOptions sopts isC).1 (normalizeSkipOptions sopts isC).2
            ((getFirstIndex (sortByStart tokens) (buildIdx (sortByStart tokens))
                left.range.2 : Nat) : Int)
            (getLastIndex (sortByStart tokens) (buildIdx (sortByStart tokens)) right.range.1)
            0 := rfl
    rw [hunfold] at ht
    have hbl := getLastIndex_bounds (sortByStart tokens) right.range.1
    exact scanBwdSkip_mem (sortByStart tokens) _ _
      ((getLastIndex (sortByStart tokens) (buildIdx (sortByStart tokens)) right.range.1
          + 1 - 0).toNat)
      _ _ (by omega) (by omega) (by omega) 0 t ht
  · intro x hx
    have hunfold : TokenStore.getTokensBetween (mkStore tokens isC) left right copts
        = collectFwdTo (sortByStart tokens)
            (normalizeCountOptions copts isC).1 (normalizeCountOptions copts isC).2
            (getLastIndex (sortByStart tokens) (buildIdx (sortByStart tokens)) right.range.1)
            (getFirstIndex (sortByStart tokens) (buildIdx (sortByStart tokens)) left.range.2)
            [] := rfl
    rw [hunfold] at hx
    rcases collectFwdTo_mem (sortByStart tokens) _ (sortByStart tokens).length _
      (by omega) _ _ [] x hx with h1 | h2
    · exact absurd h1 (by simp)
    · exact h2

/-- Witness for C7 at a concrete store: the last token between two
non-adjacent elements is an element of the store, and every element of a
`getTokensBetween` result belongs to the store. -/
theorem C7_total_queries_witness :
    TokenStore.getLastTokenBetween (mkStore [⟨(1, 2), 0⟩] (fun e => e.kind == 1))
        ⟨(0, 1), 0⟩ ⟨(3, 4), 0⟩ .undef = some ⟨(1, 2), 0⟩
    ∧ (⟨(1, 2), 0⟩ : Elem) ∈ (mkStore [⟨(1, 2), 0⟩] (fun e => e.kind == 1)).allTokens := by
  have heval : TokenStore.getLastTokenBetween (mkStore [⟨(1, 2), 0⟩] (fun e => e.kind == 1))
      ⟨(0, 1), 0⟩ ⟨(3, 4), 0⟩ .undef = some ⟨(1, 2), 0⟩ := by
    simp [mkStore, sortByStart, insertElem, buildIdx, buildIdxGo, mapSet,
      TokenStore.getLastTokenBetween, normalizeSkipOptions, getFirstIndex, getLastIndex,
      search, searchGo, advanceZW, retreatZW, scanBwdSkip]
  exact ⟨heval,
    (C7_total_queries [⟨(1, 2), 0⟩] (fun e => e.kind == 1) 0 ⟨(0, 1), 0⟩ ⟨(3, 4), 0⟩
      .undef .undef).2.2.2.1 ⟨(1, 2), 0⟩ heval⟩

theorem scanFwdSkip_zero_iff (ts : List Elem) (fl : Elem → Bool) :
    ∀ (fuel i : Nat), ts.length ≤ i + fuel → ∀ (t : Elem),
      (scanFwdSkip ts fl 0 i 0 = some t ↔
        ∃ k, i ≤ k ∧ k < ts.length ∧ ts.getD k default = t
          ∧ fl (ts.getD k default) = true
          ∧ ∀ j, i ≤ j → j < k → fl (ts.getD j default) = false) := by
  intro fuel
  induction fuel with
  | zero =>
    intro i hf t
    have hc : ¬ i < ts.length := by omega
    rw [scanFwdSkip, dif_neg hc]
    constructor
    · intro h
      exact absurd h (by simp)
    · rintro ⟨k, hk1, hk2, _⟩
      omega
  | succ fuel ih =>
    intro i hf t
    by_cases hc : i < ts.length
    · rw [scanFwdSkip, dif_pos hc]
      by_cases hfl : fl (ts.getD i default) = true
      · have hnfl : ¬((!fl (ts.getD i default)) = true) := by
          rw [hfl]
          simp
        rw [if_neg hnfl, if_neg (by omega : ¬((0 : Int) < 0))]
        constructor
        · intro h
          exact ⟨i, le_refl _, hc, Option.some.inj h, hfl,
            fun j hj1 hj2 => absurd hj1 (by omega)⟩
        · rintro ⟨k, hk1, hk2, hk3, hk4, hk5⟩
          by_cases hki : k = i
          · subst hki
            rw [hk3]
          · have := hk5 i (le_refl _) (by omega)
            rw [hfl] at this
            exact absurd this (by simp)
      · have hfl2 : (!fl (ts.getD i default)) = true := by
          revert hfl
          cases fl (ts.getD i default) <;> simp
        rw [if_pos hfl2, ih (i + 1) (by omega) t]
        constructor
        · rintro ⟨k, hk1, hk2, hk3, hk4, hk5⟩
          refine ⟨k, by omega, hk2, hk3, hk4, fun j hj1 hj2 => ?_⟩
          by_cases hji : j = i
          · subst hji
            revert hfl
            cases fl (ts.getD j default) <;> simp
          · exact hk5 j (by omega) hj2
        · rintro ⟨k, hk1, hk2, hk3, hk4, hk5⟩
          have hki : k ≠ i := by
            intro hki
            subst hki
            exact hfl hk4
          exact ⟨k, by omega, hk2, hk3, hk4, fun j hj1 hj2 => hk5 j (by omega) hj2⟩
    · rw [scanFwdSkip, dif_neg hc]
      constructor
      · intro h
        exact absurd h (by simp)
      · rintro ⟨k, hk1, hk2, _⟩
        omega

theorem scanBwdSkip_zero_iff (ts : List Elem) (fl : Elem → Bool) :
    ∀ (fuel : Nat) (i : Int), (i + 1).toNat ≤ fuel → i < (ts.length : Int) →
      ∀ (t : Elem),
      (scanBwdSkip ts fl 0 0 i 0 = some t ↔
        ∃ k : Nat, (k : Int) ≤ i ∧ ts.getD k default = t
          ∧ fl (ts.getD k default) = true
          ∧ ∀ j : Nat, (j : Int) ≤ i → k < j → fl (ts.getD j default) = false) := by
  intro fuel
  induction fuel with
  | zero =>
    intro i hf hlen t
    have hc : ¬ (0 : Int) ≤ i := by omega
    rw [scanBwdSkip, dif_neg hc]
    constructor
    · intro h
      exact absurd h (by simp)
    · rintro ⟨k, hk1, _⟩
      omega
  | succ fuel ih =>
    intro i hf hlen t
    by_cases hc : (0 : Int) ≤ i
    · rw [scanBwdSkip, dif_pos hc]
      by_cases hfl : fl (ts.getD i.toNat default) = true
      · have hnfl : ¬((!fl (ts.getD i.toNat default)) = true) := by
          rw [hfl]
          simp
        rw [if_neg hnfl, if_neg (by omega : ¬((0 : Int) < 0))]
        constructor
        · intro h
          refine ⟨i.toNat, by omega, Option.some.inj h, hfl,
            fun j hj1 hj2 => absurd hj1 (by omega)⟩
        · rintro ⟨k, hk1, hk2, hk3, hk4⟩
          by_cases hki : k = i.toNat
          · subst hki
            rw [hk2]
          · have := hk4 i.toNat (by omega) (by omega)
            rw [hfl] at this
            exact absurd this (by simp)
      · have hfl2 : (!fl (ts.getD i.toNat default)) = true := by
          revert hfl
          cases fl (ts.getD i.toNat default) <;> simp
        rw [if_pos hfl2, ih (i - 1) (by omega) (by omega) t]
        constructor
        · rintro ⟨k, hk1, hk2, hk3, hk4⟩
          refine ⟨k, by omega, hk2, hk3, fun j hj1 hj2 => ?_⟩
          by_cases hji : j = i.toNat
          · subst hji
            revert hfl
            cases fl (ts.getD i.toNat default) <;> simp
          · exact hk4 j (by omega) hj2
        · rintro ⟨k, hk1, hk2, hk3, hk4⟩
          have hki : k ≠ i.toNat := by
            intro hki
            subst hki
            exact hfl hk3
          exact ⟨k, by omega, hk2, hk3, fun j hj1 hj2 => hk4 j (by omega) hj2⟩
    · rw [scanBwdSkip, dif_neg hc]
      constructor
      · intro h
        exact absurd h (by simp)
      · rintro ⟨k, hk1, _⟩
        omega

/-- C6 (amended): on a store whose elements are proper, pairwise
non-overlapping AND all non-zero-width, for every non-comment element `x` of
the store, if `getTokenAfter(x)` with default options returns `t` then
`getTokenBefore(t)` with default options returns `x`.  The original claim (for
every constructed store) is refuted by `C6_counterexample`: a non-comment
zero-width element between `x` and `t` is returned by the backward scan
instead of `x`. -/
theorem C6_round_trip (tokens : List Elem) (isC : Elem → Bool) (x t : Elem)
    (hw : ProperNonOverlapping (sortByStart tokens))
    (hnz : ∀ e ∈ sortByStart tokens, e.range.1 < e.range.2)
    (hx : x ∈ (mkStore tokens isC).allTokens)
    (hxc : isC x = false)
    (hafter : TokenStore.getTokenAfter (mkStore tokens isC) x .undef = some t) :
    TokenStore.getTokenBefore (mkStore tokens isC) t .undef = some x := by
  rw [mkStore_allTokens] at hx
  have hsorted := pno_sortedStarts (sortByStart tokens) hw
  have hnzidx : ∀ j, j < (sortByStart tokens).length →
      ((sortByStart tokens).getD j default).range.1
        < ((sortByStart tokens).getD j default).range.2 := by
    intro j hj
    rw [List.getD_eq_getElem _ _ hj]
    exact hnz _ (List.getElem_mem hj)
  obtain ⟨ix, hixlen, hixval⟩ := List.getElem_of_mem hx
  have hixD : (sortByStart tokens).getD ix default = x := by
    rw [List.getD_eq_getElem _ _ hixlen, hixval]
  have hunfA : TokenStore.getTokenAfter (mkStore tokens isC) x .undef
      = scanFwdSkip (sortByStart tokens) (fun e => !isC e) 0
          (getFirstIndex (sortByStart tokens) (buildIdx (sortByStart tokens)) x.range.2)
          0 := rfl
  rw [hunfA] at hafter
  obtain ⟨f1, f2, f3⟩ := getFirstIndex_wf_spec (sortByStart tokens) hw x.range.2
  have hxproper : x.range.1 < x.range.2 := by
    have := hnzidx ix hixlen
    rw [hixD] at this
    exact this
  have hf : getFirstIndex (sortByStart tokens) (buildIdx (sortByStart tokens)) x.range.2
      = ix + 1 := by
    by_cases hcase : getFirstIndex (sortByStart tokens) (buildIdx (sortByStart tokens))
        x.range.2 ≤ ix
    · exfalso
      obtain ⟨_, h2⟩ := f2 (by omega)
      have h3 := hsorted ix hixlen _ hcase
      rw [hixD] at h3
      omega
    · by_contra hne
      have hgt : ix + 1 < getFirstIndex (sortByStart tokens)
          (buildIdx (sortByStart tokens)) x.range.2 := by omega
      have hlen1 : ix + 1 < (sortByStart tokens).length := by omega
      apply f3 (ix + 1) hgt hlen1
      have h5 := hw.2 (ix + 1) hlen1 ix (by omega)
      rw [hixD] at h5
      exact ⟨hnzidx _ hlen1, h5⟩
  rw [hf,
    scanFwdSkip_zero_iff (sortByStart tokens) _ (sortByStart tokens).length (ix + 1)
      (by omega) t] at hafter
  obtain ⟨k, hk1, hk2, hk3, hk4, hk5⟩ := hafter
  have hunfB : TokenStore.getTokenBefore (mkStore tokens isC) t .undef
      = scanBwdSkip (sortByStart tokens) (fun e => !isC e) 0 0
          (getLastIndex (sortByStart tokens) (buildIdx (sortByStart tokens)) t.range.1)
          0 := rfl
  rw [hunfB]
  obtain ⟨g1, g2, g3, g4⟩ := getLastIndex_wf_spec (sortByStart tokens) hw t.range.1
  have hts1 : t.range.1 = ((sortByStart tokens).getD k default).range.1 := by
    rw [hk3]
  have hl : getLastIndex (sortByStart tokens) (buildIdx (sortByStart tokens)) t.range.1
      = (k : Int) - 1 := by
    have hup : getLastIndex (sortByStart tokens) (buildIdx (sortByStart tokens)) t.range.1
        ≤ (k : Int) - 1 := by
      by_contra hgt
      have h0 : (0 : Int) ≤ getLastIndex (sortByStart tokens)
          (buildIdx (sortByStart tokens)) t.range.1 := by omega
      obtain ⟨_, hlst⟩ := g3 h0
      have hmono := hsorted (getLastIndex (sortByStart tokens)
          (buildIdx (sortByStart tokens)) t.range.1).toNat (by omega) k (by omega)
      rw [hts1] at hlst
      omega
    have hdn : (k : Int) - 1 ≤ getLastIndex (sortByStart tokens)
        (buildIdx (sortByStart tokens)) t.range.1 := by
      by_contra hlt
      have hk1' : 1 ≤ k := by omega
      have hklen : k - 1 < (sortByStart tokens).length := by omega
      apply g4 (k - 1) hklen (by omega)
      refine ⟨hnzidx _ hklen, ?_⟩
      have h6 := hw.2 k hk2 (k - 1) (by omega)
      have h7 := hnzidx (k - 1) hklen
      rw [hts1]
      omega
    omega
  rw [hl,
    scanBwdSkip_zero_iff (sortByStart tokens) _ ((k : Int) - 1 + 1).toNat ((k : Int) - 1)
      (by omega) (by omega) x]
  refine ⟨ix, by omega, hixD, ?_, ?_⟩
  · rw [hixD, hxc]
    rfl
  · intro j hj1 hj2
    exact hk5 j (by omega) (by omega)

/-- Witness for C6 at a concrete store of two adjacent proper tokens. -/
theorem C6_round_trip_witness :
    ProperNonOverlapping (sortByStart [⟨(0, 1), 0⟩, ⟨(2, 3), 0⟩])
    ∧ (∀ e ∈ sortByStart [⟨(0, 1), 0⟩, ⟨(2, 3), 0⟩], e.range.1 < e.range.2)
    ∧ (⟨(0, 1), 0⟩ : Elem) ∈ (mkStore [⟨(0, 1), 0⟩, ⟨(2, 3), 0⟩] (fun e => e.kind == 1)).allTokens
    ∧ (fun (e : Elem) => e.kind == 1) ⟨(0, 1), 0⟩ = false
    ∧ TokenStore.getTokenAfter (mkStore [⟨(0, 1), 0⟩, ⟨(2, 3), 0⟩] (fun e => e.kind == 1))
        ⟨(0, 1), 0⟩ .undef = some ⟨(2, 3), 0⟩
    ∧ TokenStore.getTokenBefore (mkStore [⟨(0, 1), 0⟩, ⟨(2, 3), 0⟩] (fun e => e.kind == 1))
        ⟨(2, 3), 0⟩ .undef = some ⟨(0, 1), 0⟩ := by
  have hafter : TokenStore.getTokenAfter
      (mkStore [⟨(0, 1), 0⟩, ⟨(2, 3), 0⟩] (fun e => e.kind == 1)) ⟨(0, 1), 0⟩ .undef
      = some ⟨(2, 3), 0⟩ := by
    simp [mkStore, sortByStart, insertElem, buildIdx, buildIdxGo, mapSet,
      TokenStore.getTokenAfter, normalizeSkipOptions, getFirstIndex, search, searchGo,
      advanceZW, scanFwdSkip]
  refine ⟨by decide, by decide, by decide, by decide, hafter, ?_⟩
  exact C6_round_trip [⟨(0, 1), 0⟩, ⟨(2, 3), 0⟩] (fun e => e.kind == 1)
    ⟨(0, 1), 0⟩ ⟨(2, 3), 0⟩ (by decide) (by decide) (by decide) (by decide) hafter

/-- Counterexample to C6 as stated: in the store
`[ x=[0,1), z=[1,1), C=[1,2) comment, t=[2,3) ]` (proper, non-overlapping,
but with a non-comment zero-width element `z`), `getTokenAfter(x)` returns
`t`, yet `getTokenBefore(t)` returns the zero-width element `z`, not `x` —
the adjacency round-trip fails although `x` is a non-comment element of the
store and no filter was supplied. -/
theorem C6_counterexample :
    TokenStore.getTokenAfter
        (mkStore [⟨(0, 1), 0⟩, ⟨(1, 1), 0⟩, ⟨(1, 2), 1⟩, ⟨(2, 3), 0⟩] (fun e => e.kind == 1))
        ⟨(0, 1), 0⟩ .undef = some ⟨(2, 3), 0⟩
    ∧ TokenStore.getTokenBefore
        (mkStore [⟨(0, 1), 0⟩, ⟨(1, 1), 0⟩, ⟨(1, 2), 1⟩, ⟨(2, 3), 0⟩] (fun e => e.kind == 1))
        ⟨(2, 3), 0⟩ .undef = some ⟨(1, 1), 0⟩
    ∧ (⟨(1, 1), 0⟩ : Elem) ≠ (⟨(0, 1), 0⟩ : Elem)
    ∧ (⟨(0, 1), 0⟩ : Elem) ∈ (mkStore [⟨(0, 1), 0⟩, ⟨(1, 1), 0⟩, ⟨(1, 2), 1⟩, ⟨(2, 3), 0⟩]
        (fun e => e.kind == 1)).allTokens
    ∧ (fun (e : Elem) => e.kind == 1) ⟨(0, 1), 0⟩ = false := by
  refine ⟨?_, ?_, by decide, by decide, by decide⟩
  · simp [mkStore, sortByStart, insertElem, buildIdx, buildIdxGo, mapSet,
      TokenStore.getTokenAfter, normalizeSkipOptions, getFirstIndex, search, searchGo,
      advanceZW, scanFwdSkip]
  · simp [mkStore, sortByStart, insertElem, buildIdx, buildIdxGo, mapSet,
      TokenStore.getTokenBefore, normalizeSkipOptions, getLastIndex, search, searchGo,
      retreatZW, scanBwdSkip]

/-- C10: the "after" queries (`getTokenAfter`, `getTokensAfter`,
`getCommentsAfter`) depend only on the argument's `range[1]`, and the "before"
queries (`getTokenBefore`, `getTokensBefore`, `getCommentsBefore`) depend only
on the argument's `range[0]`: two arguments agreeing on that offset give
identical results for every store and every options value. -/
theorem C10_after_before_locality (st : TokenStore) (a b : Elem)
    (so : SkipOptions) (co : CountOptions) :
    (a.range.2 = b.range.2 →
      st.getTokenAfter a so = st.getTokenAfter b so
      ∧ st.getTokensAfter a co = st.getTokensAfter b co
      ∧ st.getCommentsAfter a = st.getCommentsAfter b)
    ∧ (a.range.1 = b.range.1 →
      st.getTokenBefore a so = st.getTokenBefore b so
      ∧ st.getTokensBefore a co = st.getTokensBefore b co
      ∧ st.getCommentsBefore a = st.getCommentsBefore b) := by
  constructor
  · intro h
    refine ⟨?_, ?_, ?_⟩ <;>
      simp only [TokenStore.getTokenAfter, TokenStore.getTokensAfter,
        TokenStore.getCommentsAfter, h]
  · intro h
    refine ⟨?_, ?_, ?_⟩ <;>
      simp only [TokenStore.getTokenBefore, TokenStore.getTokensBefore,
        TokenStore.getCommentsBefore, h]

/-- Witness for C10 at a concrete store: two nodes sharing `range[1]` get the
same "after" results, two nodes sharing `range[0]` get the same "before"
results. -/
theorem C10_after_before_locality_witness :
    (mkStore [⟨(1, 2), 0⟩] (fun e => e.kind == 1)).getTokenAfter ⟨(0, 4), 0⟩ .undef
      = (mkStore [⟨(1, 2), 0⟩] (fun e => e.kind == 1)).getTokenAfter ⟨(2, 4), 5⟩ .undef
    ∧ (mkStore [⟨(1, 2), 0⟩] (fun e => e.kind == 1)).getTokenBefore ⟨(5, 9), 0⟩ .undef
      = (mkStore [⟨(1, 2), 0⟩] (fun e => e.kind == 1)).getTokenBefore ⟨(5, 7), 2⟩ .undef := by
  have h := C10_after_before_locality
    (mkStore [⟨(1, 2), 0⟩] (fun e => e.kind == 1)) ⟨(0, 4), 0⟩ ⟨(2, 4), 5⟩ .undef .undef
  have h2 := C10_after_before_locality
    (mkStore [⟨(1, 2), 0⟩] (fun e => e.kind == 1)) ⟨(5, 9), 0⟩ ⟨(5, 7), 2⟩ .undef .undef
  exact ⟨(h.1 rfl).1, (h2.2 rfl).1⟩
